import Mathlib

/-!
A verification development for the bms-rs chart loader.

Modelling conventions (shallow embedding of the Rust sources):
* Rust `f32` quantities are modelled by exact rationals (`ℚ`).  Literals denote
  their exact decimal values; the non-finite float literals (`inf`, `infinity`,
  `nan`) lie outside the exact-rational model and are treated as unparseable,
  and f32 rounding is not modelled.  All claim-relevant computations stay in
  the exactly-representable fragment.
* Rust machine integers are modelled by `ℤ`/`ℕ`; `as`-casts that truncate and
  saturate are modelled explicitly (`f32ToI64`, `u16OfInt`, `u16Wrap`), and
  release-mode `i64` addition overflow wraps (`i64Wrap`).
* Strings are modelled as `List Char`; where the source indexes by UTF-8
  bytes (the channel-data slot loops, `str::len`) the byte structure is
  modelled explicitly (`utf8Len`, `utf8Length`), including the slice panics
  on non-character boundaries.
* Code that can panic (`unwrap`, `expect`, out-of-bounds slicing/indexing) is
  modelled in `Option`, `none` being an abort of the whole load.
* `HashMap`s are modelled as association lists with insert-overwrite
  semantics; Rust's stable `sort_by` is modelled by a stable insertion sort.
-/

set_option maxRecDepth 100000

namespace Bms

/-! ## Numeric helpers -/

/-- Total-order comparison on `ℚ`, the behaviour of f32 `partial_cmp(..).unwrap()`
on the NaN-free rational fragment. -/
def ratCmp (a b : ℚ) : Ordering :=
  if a < b then .lt else if a = b then .eq else .gt

/-- Comparison on `ℤ`, the behaviour of i64 `partial_cmp(..).unwrap()`. -/
def intCmp (a b : ℤ) : Ordering :=
  if a < b then .lt else if a = b then .eq else .gt

/-- Comparison on `ℕ`, the behaviour of u16 `cmp`. -/
def natCmp (a b : ℕ) : Ordering :=
  if a < b then .lt else if a = b then .eq else .gt

/-- Truncation toward zero, the rounding used by Rust float-to-int `as` casts. -/
def ratTrunc (q : ℚ) : ℤ := if q < 0 then ⌈q⌉ else ⌊q⌋

/-- The Rust `f32 as i64` cast: truncate toward zero and saturate to the i64 range. -/
def f32ToI64 (q : ℚ) : ℤ := max (-(2 ^ 63)) (min (2 ^ 63 - 1) (ratTrunc q))

/-- The value an `i64` sum wraps to: release-mode Rust `+` overflows by
two's-complement wrap-around. -/
def i64Wrap (z : ℤ) : ℤ := (z + 2 ^ 63) % 2 ^ 64 - 2 ^ 63

/-- UTF-8 byte length of a character; Rust `str` indices and `str::len` count
bytes, not characters. -/
def utf8Len (c : Char) : ℕ :=
  if c.toNat < 128 then 1
  else if c.toNat < 2048 then 2
  else if c.toNat < 65536 then 3
  else 4

/-- Rust `str::len`: the UTF-8 byte length of a string. -/
def utf8Length (cs : List Char) : ℕ := (cs.map utf8Len).sum

/-- The Rust `f32 as u16` cast (applied to floor values): truncate and saturate to [0, 65535]. -/
def u16OfInt (z : ℤ) : ℕ := (max 0 (min 65535 z)).toNat

/-- The Rust `usize as u16` cast: wrap modulo 2^16. -/
def u16Wrap (n : ℕ) : ℕ := n % 65536

/-- `f32::EPSILON` (2⁻²³), which is exactly representable. -/
def EPS32 : ℚ := 1 / 8388608

/-! ## Key codec (`src/bms.rs`) -/

def BASE36 : List Char := "0123456789ABCDEFGHIJKLMNOPQRSTUVWXYZ".toList

/-- Rust `char::to_digit(radix)`: `0`-`9`, then `a`-`z`/`A`-`Z` as 10..35,
validated against the radix. -/
def charToDigit (radix : ℕ) (c : Char) : Option ℕ :=
  let n := c.toNat
  let d : Option ℕ :=
    if 48 ≤ n ∧ n ≤ 57 then some (n - 48)
    else if 97 ≤ n ∧ n ≤ 122 then some (n - 87)
    else if 65 ≤ n ∧ n ≤ 90 then some (n - 55)
    else none
  match d with
  | some v => if v < radix then some v else none
  | none => none

/-- Accumulating digit parse; `none` on the first invalid digit. -/
def parseDigits (radix : ℕ) (acc : ℕ) : List Char → Option ℕ
  | [] => some acc
  | c :: cs =>
    match charToDigit radix c with
    | some d => parseDigits radix (acc * radix + d) cs
    | none => none

/-- The value of an all-digit string (junk on invalid digits; used only for
digit-checked strings). -/
def digitsVal (radix : ℕ) (cs : List Char) : ℕ :=
  cs.foldl (fun a c => a * radix + (charToDigit radix c).getD 0) 0

/-- Strip the optional leading `+` sign accepted by Rust's unsigned
`from_str_radix` (a leading `-` is left in place and then fails as a digit). -/
def plusDigits : List Char → List Char
  | '+' :: r => r
  | cs => cs

/-- Rust `uN::from_str_radix` semantics: optional `+`, then a nonempty run of
radix digits; values above `maxVal` are an overflow error. -/
def fromStrRadix (radix maxVal : ℕ) (cs : List Char) : Option ℕ :=
  if (plusDigits cs).isEmpty then none
  else
    match parseDigits radix 0 (plusDigits cs) with
    | none => none
    | some v => if v ≤ maxVal then some v else none

def USIZE_MAX : ℕ := 2 ^ 64 - 1
def U16_MAX : ℕ := 65535

/-- `Alphanumeric`: a base-36 object key. -/
structure Alphanumeric where
  key : ℕ
deriving DecidableEq, Repr, Inhabited

/-- `Alphanumeric::from_str`: `usize::from_str_radix(key, 36).unwrap_or(0)`. -/
def Alphanumeric.from_str (cs : List Char) : Alphanumeric :=
  ⟨(fromStrRadix 36 USIZE_MAX cs).getD 0⟩

/-- `Alphanumeric::from_int`. -/
def Alphanumeric.from_int (k : ℕ) : Alphanumeric := ⟨k⟩

/-- `Alphanumeric::as_base36`: two base-36 characters, panicking (`none`) on a
key outside 00..ZZ. -/
def Alphanumeric.as_base36 (a : Alphanumeric) : Option (List Char) := do
  let c1 ← BASE36.get? (a.key / 36)
  let c2 ← BASE36.get? (a.key % 36)
  pure [c1, c2]

/-- A character usable as a base-36 digit. -/
def isBase36Digit (c : Char) : Bool := (charToDigit 36 c).isSome

/-! ## Timeline (`src/bms/timeline.rs`) -/

/-- An event in the timeline. -/
structure Event where
  time : ℤ
  measure : ℚ
  pos : ℚ
  bpm : ℚ
  length : ℚ
deriving DecidableEq, Repr, Inhabited

/-- The timeline: events in chronological order. -/
structure Timeline where
  events : List Event
deriving DecidableEq, Repr, Inhabited

/-- `Timeline::last_event`; panics (`none`) on an empty timeline. -/
def Timeline.last_event (tl : Timeline) : Option Event := tl.events.getLast?

/-- `Timeline::add_event`. -/
def Timeline.add_event (tl : Timeline) (measure bpm length : ℚ) : Timeline :=
  match tl.events.getLast? with
  | none =>
    ⟨tl.events ++ [{ time := 0, measure := measure, pos := 0, bpm := bpm, length := length }]⟩
  | some last =>
    if last.bpm ≠ bpm ∨ last.length ≠ length then
      let time := i64Wrap (last.time +
        f32ToI64 ((measure - last.measure) * (240000 / last.bpm) * last.length))
      ⟨tl.events ++ [{ time := time, measure := measure, pos := 0, bpm := bpm, length := length }]⟩
    else tl

/-- `Timeline::add_stop_event`; reads `last_event` and therefore panics
(`none`) on an empty timeline. -/
def Timeline.add_stop_event (tl : Timeline) (measure stop_arg : ℚ) : Option Timeline :=
  match tl.events.getLast? with
  | none => none
  | some last =>
    if last.measure ≠ measure then
      let t := i64Wrap (last.time +
        f32ToI64 ((measure - last.measure) * (240000 / last.bpm) * last.length))
      let t2 := i64Wrap (t + f32ToI64 (240000 / last.bpm * stop_arg / 192))
      some ⟨tl.events ++
        [{ time := t, measure := measure, pos := last.pos, bpm := last.bpm,
           length := last.length },
         { time := t2, measure := measure, pos := last.pos, bpm := last.bpm,
           length := last.length }]⟩
    else
      let t2 := i64Wrap (last.time + f32ToI64 (240000 / last.bpm * stop_arg / 192))
      some ⟨tl.events ++
        [{ time := t2, measure := measure, pos := last.pos, bpm := last.bpm,
           length := last.length }]⟩

/-- The classic midpoint binary search used by Rust `slice::binary_search_by`
(`.ok` = found at index, `.error` = insertion point), written with explicit
fuel; the span shrinks by at least one per step, so fuel `v.length` suffices. -/
def binSearchGo (f : α → Ordering) (v : List α) (d : α) :
    ℕ → ℕ → ℕ → Except ℕ ℕ
  | 0, left, _right => .error left
  | fuel + 1, left, right =>
    if left < right then
      let mid := left + (right - left) / 2
      match f (v.getD mid d) with
      | .lt => binSearchGo f v d fuel (mid + 1) right
      | .gt => binSearchGo f v d fuel left mid
      | .eq => .ok mid
    else .error left

def binarySearchBy (v : List α) (d : α) (f : α → Ordering) : Except ℕ ℕ :=
  binSearchGo f v d v.length 0 v.length

/-- Forward walk over a run of events with the given measure
(the `while` loop in `last_event_index_in_measure`). -/
def walkMeasure (v : List Event) (d : Event) (measure : ℚ) : ℕ → ℕ → ℕ
  | 0, i => i
  | fuel + 1, i =>
    if i < v.length - 1 ∧ (v.getD (i + 1) d).measure = measure then
      walkMeasure v d measure fuel (i + 1)
    else i

/-- `Timeline::last_event_index_in_measure`. -/
def Timeline.last_event_index_in_measure (v : List Event) (measure : ℚ) : ℕ :=
  match binarySearchBy v default (fun e => ratCmp e.measure measure) with
  | .ok i => walkMeasure v default measure v.length i
  | .error i => if i = 0 then 0 else i - 1

/-- Forward walk over a run of events with the given time. -/
def walkTime (v : List Event) (d : Event) (time : ℤ) : ℕ → ℕ → ℕ
  | 0, i => i
  | fuel + 1, i =>
    if i < v.length - 1 ∧ (v.getD (i + 1) d).time = time then
      walkTime v d time fuel (i + 1)
    else i

/-- `Timeline::last_event_index_in_time`. -/
def Timeline.last_event_index_in_time (v : List Event) (time : ℤ) : ℕ :=
  match binarySearchBy v default (fun e => intCmp e.time time) with
  | .ok i => walkTime v default time v.length i
  | .error i => if i = 0 then 0 else i - 1

/-- `Timeline::time_from_measure`; indexes the located event, hence `none`
(a panic) only on an empty timeline. -/
def Timeline.time_from_measure (tl : Timeline) (measure : ℚ) : Option ℤ := do
  let i := Timeline.last_event_index_in_measure tl.events measure
  let e ← tl.events.get? i
  let remaining_measure := measure - e.measure
  let remaining_time := f32ToI64 (remaining_measure * (240000 / e.bpm) * e.length)
  pure (e.time + remaining_time)

/-- `Timeline::cache_event_pos` (prefix-sum pass over positions). -/
def cachePosGo (prev : Event) : List Event → List Event
  | [] => []
  | e :: rest =>
    let e' := { e with pos := prev.pos + (e.measure - prev.measure) * prev.bpm * prev.length }
    e' :: cachePosGo e' rest

def Timeline.cache_event_pos (tl : Timeline) : Timeline :=
  match tl.events with
  | [] => tl
  | e :: rest => ⟨e :: cachePosGo e rest⟩

/-- `Timeline::pos_from_measure`. -/
def Timeline.pos_from_measure (tl : Timeline) (measure speed : ℚ) : Option ℚ := do
  let i := Timeline.last_event_index_in_measure tl.events measure
  let e ← tl.events.get? i
  pure (e.pos * speed + (measure - e.measure) * speed * e.bpm * e.length)

/-- `Timeline::measure_from_time`. -/
def Timeline.measure_from_time (tl : Timeline) (time : ℤ) : Option ℚ := do
  let i := Timeline.last_event_index_in_time tl.events time
  let e ← tl.events.get? i
  if i < tl.events.length - 1 ∧ e.measure = (tl.events.getD (i + 1) default).measure then
    pure e.measure
  else
    let remaining_time := time - e.time
    let remaining_measure : ℚ := (remaining_time : ℚ) * (e.bpm / 240000) / e.length
    pure (e.measure + remaining_measure)

/-! ## Timeline builder (`src/bms/timeline.rs`) -/

inductive TimelineEvent where
  | BPM (measure bpm : ℚ)
  | STOP (measure duration : ℚ)
deriving DecidableEq, Repr

structure TimelineBuilder where
  base_bpm : ℚ
  bpms : List (Alphanumeric × ℚ)
  stops : List (Alphanumeric × ℚ)
  measure_lens : List ℚ
  events : List TimelineEvent
deriving DecidableEq, Repr

/-- `TimelineBuilder::new`: 130 BPM default, 1000 measure lengths of 1.0. -/
def TimelineBuilder.new : TimelineBuilder :=
  { base_bpm := 130, bpms := [], stops := [], measure_lens := List.replicate 1000 1,
    events := [] }

/-- HashMap insert (overwrite on an existing key). -/
def alInsert (k : Alphanumeric) (v : ℚ) : List (Alphanumeric × ℚ) → List (Alphanumeric × ℚ)
  | [] => [(k, v)]
  | (k', v') :: rest => if k' = k then (k, v) :: rest else (k', v') :: alInsert k v rest

/-- HashMap get. -/
def alLookup (k : Alphanumeric) : List (Alphanumeric × ℚ) → Option ℚ
  | [] => none
  | (k', v') :: rest => if k' = k then some v' else alLookup k rest

def TimelineBuilder.with_base_bpm (b : TimelineBuilder) (base_bpm : ℚ) : TimelineBuilder :=
  { b with base_bpm := base_bpm }

def TimelineBuilder.with_bpm (b : TimelineBuilder) (k : Alphanumeric) (bpm : ℚ) :
    TimelineBuilder :=
  { b with bpms := alInsert k bpm b.bpms }

def TimelineBuilder.with_stop (b : TimelineBuilder) (k : Alphanumeric) (stop : ℚ) :
    TimelineBuilder :=
  { b with stops := alInsert k stop b.stops }

def TimelineBuilder.with_event (b : TimelineBuilder) (e : TimelineEvent) : TimelineBuilder :=
  { b with events := b.events ++ [e] }

/-- `TimelineBuilder::with_measure_len`: indexing `measure_lens[measure]`
panics (`none`) out of range. -/
def TimelineBuilder.with_measure_len (b : TimelineBuilder) (measure : ℕ) (length : ℚ) :
    Option TimelineBuilder :=
  if measure < b.measure_lens.length then
    some { b with measure_lens := b.measure_lens.set measure length }
  else none

/-- `TimelineBuilder::find_bpm`: missing keys yield the neutral 0. -/
def TimelineBuilder.find_bpm (b : TimelineBuilder) (k : Alphanumeric) : ℚ :=
  (alLookup k b.bpms).getD 0

/-- `TimelineBuilder::find_stop`. -/
def TimelineBuilder.find_stop (b : TimelineBuilder) (k : Alphanumeric) : ℚ :=
  (alLookup k b.stops).getD 0

/-- Stable insertion sort, modelling Rust's stable `sort_by` (identical output
for a total preorder comparator). -/
def insSorted (le : α → α → Prop) [DecidableRel le] (x : α) : List α → List α
  | [] => [x]
  | y :: ys => if le y x then y :: insSorted le x ys else x :: y :: ys

def insSort (le : α → α → Prop) [DecidableRel le] (l : List α) : List α :=
  l.foldl (fun acc x => insSorted le x acc) []

/-- The run-length scan over `measure_lens` (`measure_indices` in `build`);
`none` models the `first().unwrap()` panic on an empty vector.  Indices are
cast `as u16` (wrapping). -/
def rleGo (last : ℚ) (i : ℕ) : List ℚ → List (ℕ × ℚ)
  | [] => []
  | x :: xs =>
    if last ≠ x then (u16Wrap i, x) :: rleGo x (i + 1) xs
    else rleGo last (i + 1) xs

def measureIndices (lens : List ℚ) : Option (List (ℕ × ℚ)) :=
  match lens with
  | [] => none
  | l0 :: rest => some ((0, l0) :: rleGo l0 1 rest)

/-- One iteration of the `build` loop: refresh the memoized bpm/length, apply
a stop if one falls on this measure, then `add_event`. -/
def TimelineBuilder.buildLoopStep (bpm_measures stop_measures : List (ℚ × ℚ))
    (mi : List (ℕ × ℚ)) (st : ℚ × ℚ × Timeline) (m : ℚ) : Option (ℚ × ℚ × Timeline) := do
  let (lb0, ll0, tl0) := st
  let lb : ℚ :=
    match binarySearchBy bpm_measures (0, 0) (fun p => ratCmp p.1 m) with
    | .ok i => (bpm_measures.getD i (0, 0)).2
    | .error _ => lb0
  let ll : ℚ :=
    if |((⌊m⌋ : ℚ) - m)| ≤ EPS32 then
      match binarySearchBy mi (0, 0) (fun p => natCmp p.1 (u16OfInt ⌊m⌋)) with
      | .ok i => (mi.getD i (0, 0)).2
      | .error _ => ll0
    else ll0
  let tl1 ←
    match binarySearchBy stop_measures (0, 0) (fun p => ratCmp p.1 m) with
    | .ok i => tl0.add_stop_event m (stop_measures.getD i (0, 0)).2
    | .error _ => pure tl0
  pure (lb, ll, tl1.add_event m lb ll)

/-- `TimelineBuilder::build`. -/
def TimelineBuilder.build (b : TimelineBuilder) : Option Timeline := do
  let bpm_measures0 := b.events.filterMap fun e =>
    match e with
    | .BPM m v => some (m, v)
    | .STOP _ _ => none
  let stop_measures0 := b.events.filterMap fun e =>
    match e with
    | .STOP m d => some (m, d)
    | .BPM _ _ => none
  let eventMeasures := b.events.map fun e =>
    match e with
    | .BPM m _ => m
    | .STOP m _ => m
  let mi ← measureIndices b.measure_lens
  let timeline_measures :=
    (insSort (· ≤ ·) (eventMeasures ++ mi.map fun p => (p.1 : ℚ))).destutter (· ≠ ·)
  let bpm_measures := insSort (fun p q : ℚ × ℚ => p.1 ≤ q.1) bpm_measures0
  let stop_measures := insSort (fun p q : ℚ × ℚ => p.1 ≤ q.1) stop_measures0
  let last_bpm : ℚ :=
    if bpm_measures.isEmpty ∨ 1 / 1000000 < (bpm_measures.headD (0, 0)).1 - 0 then b.base_bpm
    else (bpm_measures.headD (0, 0)).2
  let last_len : ℚ := (mi.headD (0, 0)).2
  let (_, _, tl) ← timeline_measures.foldlM
    (TimelineBuilder.buildLoopStep bpm_measures stop_measures mi)
    (last_bpm, last_len, (⟨[]⟩ : Timeline))
  pure tl.cache_event_pos

/-! ## Objects and chart (`src/bms.rs`, `src/bms/format.rs`) -/

inductive ObjType where
  | Auto (k : Alphanumeric)
  | BGA (k : Alphanumeric)
  | Note (k : Alphanumeric)
  | LongNote (measure : ℚ)
deriving DecidableEq, Repr

structure Object where
  time : ℤ
  measure : ℚ
  channel : ℕ
  objtype : ObjType
  hit_offset : Option ℚ
  longnote_hit_offset : Option ℚ
deriving DecidableEq, Repr

/-- String-keyed HashMap insert (metadata). -/
def msInsert (k v : List Char) : List (List Char × List Char) → List (List Char × List Char)
  | [] => [(k, v)]
  | (k', v') :: rest => if k' = k then (k, v) :: rest else (k', v') :: msInsert k v rest

def msLookup (k : List Char) : List (List Char × List Char) → Option (List Char)
  | [] => none
  | (k', v') :: rest => if k' = k then some v' else msLookup k rest

/-- Key-to-path HashMap insert (keysounds, BGA layers). -/
def kpInsert (k : Alphanumeric) (v : List Char) :
    List (Alphanumeric × List Char) → List (Alphanumeric × List Char)
  | [] => [(k, v)]
  | (k', v') :: rest => if k' = k then (k, v) :: rest else (k', v') :: kpInsert k v rest

structure BmsBuilder where
  metadata : List (List Char × List Char)
  objects : List Object
  keysounds : List (Alphanumeric × List Char)
  bga_layers : List (Alphanumeric × List Char)
  timeline_builder : TimelineBuilder
deriving DecidableEq, Repr

structure BMS where
  title : List Char
  artist : List Char
  metadata : List (List Char × List Char)
  objects : List Object
  timeline : Timeline
  keysounds : List (Alphanumeric × List Char)
  bga_layers : List (Alphanumeric × List Char)
deriving DecidableEq, Repr

def BmsBuilder.new : BmsBuilder :=
  { metadata := [], objects := [], keysounds := [], bga_layers := [],
    timeline_builder := TimelineBuilder.new }

def BmsBuilder.with_metadata (b : BmsBuilder) (h v : List Char) : BmsBuilder :=
  { b with metadata := msInsert h v b.metadata }

def BmsBuilder.with_keysound (b : BmsBuilder) (k : Alphanumeric) (path : List Char) :
    BmsBuilder :=
  { b with keysounds := kpInsert k path b.keysounds }

def BmsBuilder.with_bga_layer (b : BmsBuilder) (k : Alphanumeric) (path : List Char) :
    BmsBuilder :=
  { b with bga_layers := kpInsert k path b.bga_layers }

def BmsBuilder.with_bpm (b : BmsBuilder) (k : Alphanumeric) (bpm : ℚ) : BmsBuilder :=
  { b with timeline_builder := b.timeline_builder.with_bpm k bpm }

def BmsBuilder.with_stop (b : BmsBuilder) (k : Alphanumeric) (stop : ℚ) : BmsBuilder :=
  { b with timeline_builder := b.timeline_builder.with_stop k stop }

def BmsBuilder.add_object (b : BmsBuilder) (o : Object) : BmsBuilder :=
  { b with objects := b.objects ++ [o] }

/-- `BmsBuilder::build`: default title/artist, stable sort of objects by
measure, timeline build, then absolute-time resolution of every object. -/
def BmsBuilder.build (b : BmsBuilder) : Option BMS := do
  let title := (msLookup ("TITLE".toList) b.metadata).getD ("MISSING TITLE".toList)
  let artist := (msLookup ("ARTIST".toList) b.metadata).getD ("MISSING ARTIST".toList)
  let objects := insSort (fun o1 o2 : Object => o1.measure ≤ o2.measure) b.objects
  let timeline ← b.timeline_builder.build
  let objects ← objects.mapM fun o =>
    (timeline.time_from_measure o.measure).map fun t => { o with time := t }
  pure { title := title, artist := artist, metadata := b.metadata, objects := objects,
         timeline := timeline, keysounds := b.keysounds, bga_layers := b.bga_layers }

/-! ## Line grammars (`src/bms/parser.rs`)

The regular expressions are matched by the `regex` crate with unanchored,
leftmost-first (Perl-style) semantics; each pattern below is modelled by a
try-at-one-position function plus a leftmost scan.  `.` matches any character
except a newline. -/

/-- Whitespace as trimmed by `str::trim` (ASCII/common fragment). -/
def trim (cs : List Char) : List Char :=
  ((cs.dropWhile Char.isWhitespace).reverse.dropWhile Char.isWhitespace).reverse

/-- Rust `str::lines`: split at `\n`, dropping one trailing `\r` per line and
the final empty segment. -/
def stripCR (cs : List Char) : List Char :=
  match cs.getLast? with
  | some c => if c = '\r' then cs.dropLast else cs
  | none => cs

def splitLinesGo (acc : List Char) : List Char → List (List Char)
  | [] => [stripCR acc.reverse]
  | '\n' :: [] => [stripCR acc.reverse]
  | '\n' :: rest => stripCR acc.reverse :: splitLinesGo [] rest
  | c :: rest => splitLinesGo (c :: acc) rest

def splitLines (cs : List Char) : List (List Char) :=
  match cs with
  | [] => []
  | _ => splitLinesGo [] cs

/-- Rust `f32::from_str` on the finite-literal fragment: optional sign,
digits with an optional point, optional exponent.  MODEL BOUNDARY: Rust also
accepts the non-finite literals (`inf`, `infinity`, `nan`, case-insensitive);
those values are not representable in the exact-rational model, so here they
parse as `none`.  Every theorem whose hypotheses require a value to parse is
therefore stated on (and only exercised by its witnesses on) the finite
fragment. -/
def parseF32 (cs : List Char) : Option ℚ :=
  let signStrip : Bool × List Char :=
    match cs with
    | '+' :: r => (false, r)
    | '-' :: r => (true, r)
    | _ => (false, cs)
  let neg := signStrip.1
  let afterSign := signStrip.2
  let ipSplit := afterSign.span Char.isDigit
  let ip := ipSplit.1
  let afterInt := ipSplit.2
  let fpSplit : List Char × List Char :=
    match afterInt with
    | '.' :: r => r.span Char.isDigit
    | _ => ([], afterInt)
  let fp := fpSplit.1
  let afterFrac : List Char :=
    match afterInt with
    | '.' :: r => (r.span Char.isDigit).2
    | _ => afterInt
  if ip.isEmpty ∧ fp.isEmpty then none
  else
    let mant : ℚ := (digitsVal 10 (ip ++ fp) : ℚ) / ((10 : ℚ) ^ fp.length)
    let res : Option ℚ :=
      match afterFrac with
      | [] => some mant
      | e :: r =>
        if e = 'e' ∨ e = 'E' then
          let esplit : Bool × List Char :=
            match r with
            | '+' :: r' => (false, r')
            | '-' :: r' => (true, r')
            | _ => (false, r)
          let edigits := esplit.2.span Char.isDigit
          if edigits.1.isEmpty ∨ ¬ edigits.2.isEmpty then none
          else if esplit.1 then some (mant / (10 : ℚ) ^ digitsVal 10 edigits.1)
          else some (mant * (10 : ℚ) ^ digitsVal 10 edigits.1)
        else none
    res.map fun q => if neg then -q else q

/-- Leftmost scan: try the pattern at every start position, first hit wins. -/
def scanFirst (tryAt : List Char → Option α) : List Char → Option α
  | [] => none
  | c :: rest =>
    match tryAt (c :: rest) with
    | some r => some r
    | none => scanFirst tryAt rest

/-- Strip a literal tag. -/
def stripTag : List Char → List Char → Option (List Char)
  | [], cs => some cs
  | t :: ts, c :: cs => if c = t then stripTag ts cs else none
  | _ :: _, [] => none

/-- One position of `#TAG(?P<key>.{0,2}) (?P<data>.*)` — greedy 0-2 char key,
then a space, then the rest of the line. -/
def keyValTryAt (tag : List Char) (cs : List Char) : Option (List Char × List Char) :=
  match stripTag tag cs with
  | none => none
  | some rest =>
    match rest with
    | a :: b :: c :: d =>
      if a ≠ '\n' ∧ b ≠ '\n' ∧ c = ' ' then some ([a, b], d)
      else if a ≠ '\n' ∧ b = ' ' then some ([a], c :: d)
      else if a = ' ' then some ([], b :: c :: d)
      else none
    | [a, b] =>
      if a ≠ '\n' ∧ b = ' ' then some ([a], [])
      else if a = ' ' then some ([], [b])
      else none
    | [a] => if a = ' ' then some ([], []) else none
    | [] => none

/-- The lazy key split of `#TAG(?P<key>.+?) (?P<data>.*)`: the shortest
nonempty, newline-free key followed by a space. -/
def lazySplit (acc : List Char) : List Char → Option (List Char × List Char)
  | [] => none
  | c :: rest =>
    if c = ' ' ∧ acc ≠ [] then some (acc.reverse, rest)
    else if c = '\n' then none
    else lazySplit (c :: acc) rest

def lazyKeyTryAt (tag : List Char) (cs : List Char) : Option (List Char × List Char) :=
  match stripTag tag cs with
  | none => none
  | some rest => lazySplit [] rest

/-- One position of the channel-data pattern
`#(?P<measure>[0-9]{3})(?P<channel>[0-9]{2}):(?P<data>.*)`. -/
def objTryAt : List Char → Option (ℕ × ℕ × List Char)
  | '#' :: m1 :: m2 :: m3 :: c1 :: c2 :: ':' :: data =>
    if m1.isDigit ∧ m2.isDigit ∧ m3.isDigit ∧ c1.isDigit ∧ c2.isDigit then
      some (digitsVal 10 [m1, m2, m3], digitsVal 10 [c1, c2], data)
    else none
  | _ => none

def wavMatch (line : List Char) : Option (List Char × List Char) :=
  scanFirst (lazyKeyTryAt ("#WAV".toList)) line

def bgaMatch (line : List Char) : Option (List Char × List Char) :=
  scanFirst (lazyKeyTryAt ("#BMP".toList)) line

def bpmMatch (line : List Char) : Option (List Char × List Char) :=
  scanFirst (keyValTryAt ("#BPM".toList)) line

def stopMatch (line : List Char) : Option (List Char × List Char) :=
  scanFirst (keyValTryAt ("#STOP".toList)) line

def objMatch (line : List Char) : Option (ℕ × ℕ × List Char) :=
  scanFirst objTryAt line

def METADATA_HEADERS : List (List Char) :=
  ["PLAYER".toList, "GENRE".toList, "TITLE".toList, "ARTIST".toList,
   "PLAYLEVEL".toList, "RANK".toList, "TOTAL".toList, "STAGEFILE".toList]

def findHeader : List (List Char) → List Char → Option (List Char × List Char)
  | [], _ => none
  | h :: hs, entry =>
    if h.isPrefixOf entry then some (h, trim (entry.drop h.length))
    else findHeader hs entry

/-- `MetadataParser::parse_line`: anchored `#` then a recognized header. -/
def metadataTry (cs : List Char) : Option (List Char × List Char) :=
  match cs with
  | '#' :: entry => findHeader METADATA_HEADERS entry
  | [] => none
  | _ :: _ => none

/-! ## Channel dispatch (`ObjParser::parse_line_into_bms`) -/

def placementChannels : List ℕ := [1, 11, 12, 13, 14, 15, 16, 18, 19, 4]

/-- The placement-channel slot loop (channels 1, 11-16, 18, 19, 4): the
source slices two BYTES per slot (`&data[iter..iter + 2]`), so a slot is
either two one-byte characters or a single two-byte character, and the slice
panics (`none`) when fewer than two bytes remain or when `iter + 2` falls
inside a multi-byte character.  Each slot with a non-zero decoded key yields
one object. -/
def placementGo (measure total channel : ℕ) : ℕ → List Char → Option (List Object)
  | _, [] => some []
  | iter, c1 :: rest =>
    if utf8Len c1 = 1 then
      match rest with
      | [] => none
      | c2 :: rest2 =>
        if utf8Len c2 = 1 then do
          let n_measure : ℚ := (measure : ℚ) + (iter : ℚ) / (total : ℚ)
          let n_keysound := Alphanumeric.from_str [c1, c2]
          let tail ← placementGo measure total channel (iter + 2) rest2
          if n_keysound.key = 0 then pure tail
          else
            let objtype : ObjType :=
              if channel = 4 then .BGA n_keysound
              else if channel = 1 then .Auto n_keysound
              else .Note n_keysound
            pure ({ time := 0, measure := n_measure, channel := channel, objtype := objtype,
                    hit_offset := none, longnote_hit_offset := none } :: tail)
        else none
    else if utf8Len c1 = 2 then do
      let n_measure : ℚ := (measure : ℚ) + (iter : ℚ) / (total : ℚ)
      let n_keysound := Alphanumeric.from_str [c1]
      let tail ← placementGo measure total channel (iter + 2) rest
      if n_keysound.key = 0 then pure tail
      else
        let objtype : ObjType :=
          if channel = 4 then .BGA n_keysound
          else if channel = 1 then .Auto n_keysound
          else .Note n_keysound
        pure ({ time := 0, measure := n_measure, channel := channel, objtype := objtype,
                hit_offset := none, longnote_hit_offset := none } :: tail)
    else none

/-- The tempo-channel slot loop (channels 3 and 8), slicing two bytes per
slot exactly as `placementGo`.  Channel 3 parses each slot as hexadecimal
(`unwrap`: `none` on failure); channel 8 looks the slot up in the named-tempo
table.  Values within 10⁻⁶ of zero are filtered. -/
def bpmChannelGo (measure total channel : ℕ) (tb : TimelineBuilder) :
    ℕ → List Char → Option (List TimelineEvent)
  | _, [] => some []
  | iter, c1 :: rest =>
    if utf8Len c1 = 1 then
      match rest with
      | [] => none
      | c2 :: rest2 =>
        if utf8Len c2 = 1 then do
          let bpm_measure : ℚ := (measure : ℚ) + (iter : ℚ) / (total : ℚ)
          let bpm_value : ℚ ←
            if channel = 3 then (fromStrRadix 16 U16_MAX [c1, c2]).map (fun n => (n : ℚ))
            else pure (tb.find_bpm (Alphanumeric.from_str [c1, c2]))
          let tail ← bpmChannelGo measure total channel tb (iter + 2) rest2
          if 1 / 1000000 < |bpm_value - 0| then pure (.BPM bpm_measure bpm_value :: tail)
          else pure tail
        else none
    else if utf8Len c1 = 2 then do
      let bpm_measure : ℚ := (measure : ℚ) + (iter : ℚ) / (total : ℚ)
      let bpm_value : ℚ ←
        if channel = 3 then (fromStrRadix 16 U16_MAX [c1]).map (fun n => (n : ℚ))
        else pure (tb.find_bpm (Alphanumeric.from_str [c1]))
      let tail ← bpmChannelGo measure total channel tb (iter + 2) rest
      if 1 / 1000000 < |bpm_value - 0| then pure (.BPM bpm_measure bpm_value :: tail)
      else pure tail
    else none

/-- The stop-channel slot loop (channel 9), slicing two bytes per slot
exactly as `placementGo`: named-stop lookup, zero filtered. -/
def stopChannelGo (measure total : ℕ) (tb : TimelineBuilder) :
    ℕ → List Char → Option (List TimelineEvent)
  | _, [] => some []
  | iter, c1 :: rest =>
    if utf8Len c1 = 1 then
      match rest with
      | [] => none
      | c2 :: rest2 =>
        if utf8Len c2 = 1 then do
          let stop_measure : ℚ := (measure : ℚ) + (iter : ℚ) / (total : ℚ)
          let stop_val : ℚ := tb.find_stop (Alphanumeric.from_str [c1, c2])
          let tail ← stopChannelGo measure total tb (iter + 2) rest2
          if stop_val ≠ 0 then pure (.STOP stop_measure stop_val :: tail)
          else pure tail
        else none
    else if utf8Len c1 = 2 then do
      let stop_measure : ℚ := (measure : ℚ) + (iter : ℚ) / (total : ℚ)
      let stop_val : ℚ := tb.find_stop (Alphanumeric.from_str [c1])
      let tail ← stopChannelGo measure total tb (iter + 2) rest
      if stop_val ≠ 0 then pure (.STOP stop_measure stop_val :: tail)
      else pure tail
    else none

/-- The channel dispatch of `ObjParser::parse_line_into_bms` after a regex
match, on the trimmed payload.  `some (false, _)` is the unrecognized-channel
fall-through; `none` is a panic. -/
def objApply (measure channel : ℕ) (data : List Char) (bb : BmsBuilder) :
    Option (Bool × BmsBuilder) :=
  if channel ∈ placementChannels then do
    let objs ← placementGo measure (utf8Length data) channel 0 data
    pure (true, { bb with objects := bb.objects ++ objs })
  else if channel = 3 ∨ channel = 8 then do
    let evs ← bpmChannelGo measure (utf8Length data) channel bb.timeline_builder 0 data
    pure (true, { bb with timeline_builder :=
      { bb.timeline_builder with events := bb.timeline_builder.events ++ evs } })
  else if channel = 9 then do
    let evs ← stopChannelGo measure (utf8Length data) bb.timeline_builder 0 data
    pure (true, { bb with timeline_builder :=
      { bb.timeline_builder with events := bb.timeline_builder.events ++ evs } })
  else if channel = 2 then do
    let len ← parseF32 data
    let tb ← bb.timeline_builder.with_measure_len measure len
    pure (true, { bb with timeline_builder := tb })
  else pure (false, bb)

/-! ## Priority-ordered line dispatch (`BmsParser::parse`) -/

/-- The `StopParser` stage (tried last). -/
def stopStage (line : List Char) (bb : BmsBuilder) : Option BmsBuilder :=
  match stopMatch line with
  | some (k, d) =>
    match parseF32 (trim d) with
    | some v => some (bb.with_stop (Alphanumeric.from_str (trim k)) v)
    | none => none
  | none => some bb

/-- One line through the parser chain (Metadata, Wav, Bga, Bpm, Obj, Stop;
first match wins; unmatched lines are ignored).  `none` is a panic aborting
the whole load. -/
def parseLineIntoBms (line : List Char) (bb : BmsBuilder) : Option BmsBuilder :=
  match metadataTry line with
  | some (h, v) => some (bb.with_metadata h v)
  | none =>
    match wavMatch line with
    | some (k, d) => some (bb.with_keysound (Alphanumeric.from_str (trim k)) (trim d))
    | none =>
      match bgaMatch line with
      | some (k, d) => some (bb.with_bga_layer (Alphanumeric.from_str (trim k)) (trim d))
      | none =>
        match bpmMatch line with
        | some (k, d) =>
          match parseF32 (trim d) with
          | some bpm =>
            let key := Alphanumeric.from_str (trim k)
            if key.key = 0 then
              some { bb with timeline_builder := bb.timeline_builder.with_base_bpm bpm }
            else some (bb.with_bpm key bpm)
          | none => none
        | none =>
          match objMatch line with
          | some (m, ch, d) =>
            match objApply m ch (trim d) bb with
            | some (true, bb') => some bb'
            | some (false, _) => stopStage line bb
            | none => none
          | none => stopStage line bb

/-- The whole-text fold of `BmsParser::parse` up to `BmsBuilder::build`. -/
def foldBuilder (text : String) : Option BmsBuilder :=
  (splitLines text.toList).foldlM (fun b l => parseLineIntoBms l b) BmsBuilder.new

/-- `BmsParser::parse`: decode, fold every line, build the chart. -/
def parseBms (text : String) : Option BMS :=
  (foldBuilder text).bind BmsBuilder.build

/-! ## Concrete instances used by the claims -/

/-- The builder of claim C1: base tempo 120 and a single 192-unit stop at
measure 2. -/
def c1Builder : TimelineBuilder :=
  (TimelineBuilder.new.with_base_bpm 120).with_event (.STOP 2 192)

/-- The timeline produced by `c1Builder` (verified below). -/
def c1Timeline : Timeline :=
  ⟨[{ time := 0, measure := 0, pos := 0, bpm := 120, length := 1 },
    { time := 4000, measure := 2, pos := 240, bpm := 120, length := 1 },
    { time := 6000, measure := 2, pos := 240, bpm := 120, length := 1 }]⟩

/-- A two-character token made of base-36 digits. -/
def isValidBase36Pair (cs : List Char) : Prop :=
  cs.length = 2 ∧ ∀ c ∈ cs, isBase36Digit c

instance : DecidablePred isValidBase36Pair := fun cs => by
  unfold isValidBase36Pair; infer_instance

/-- The consecutive 2-character slots of a payload (specification helper). -/
def chunkPairs : List Char → List (Char × Char)
  | c1 :: c2 :: rest => (c1, c2) :: chunkPairs rest
  | _ => []

/-- The object a placement-channel slot produces (specification helper). -/
def slotObject (m ch n : ℕ) (p : (Char × Char) × ℕ) : Option Object :=
  let key := Alphanumeric.from_str [p.1.1, p.1.2]
  if key.key = 0 then none
  else some { time := 0, measure := (m : ℚ) + (p.2 : ℚ) / (n : ℚ), channel := ch,
              objtype := if ch = 4 then .BGA key else if ch = 1 then .Auto key
                         else .Note key,
              hit_offset := none, longnote_hit_offset := none }

/-- The object of a slot, indexed from an in-payload byte offset
(specification helper generalizing `slotObject` over the loop counter). -/
def slotObjAt (m total ch : ℕ) (iter : ℚ) (p : (Char × Char) × ℕ) : Option Object :=
  let key := Alphanumeric.from_str [p.1.1, p.1.2]
  if key.key = 0 then none
  else some { time := 0, measure := (m : ℚ) + (iter + 2 * (p.2 : ℚ)) / (total : ℚ),
              channel := ch,
              objtype := if ch = 4 then .BGA key else if ch = 1 then .Auto key else .Note key,
              hit_offset := none, longnote_hit_offset := none }


/-! ## Specification-side predicates for C2 and C3 -/

/-- The event-ordering invariant of claim C3: non-decreasing measure and
non-decreasing time. -/
def evLE (a b : Event) : Prop := a.measure ≤ b.measure ∧ a.time ≤ b.time

/-- Per-event bounds threaded through the build loop for claim C3: a tempo of
at least 1 BPM, a positive length of at most 10⁶, and a non-negative time. -/
def evOk (e : Event) : Prop :=
  1 ≤ e.bpm ∧ 0 < e.length ∧ e.length ≤ 1000000 ∧ 0 ≤ e.time

/-- The time budget that keeps every `i64` addition of the build loop below
`i64::MAX` (`K` is the budget still reserved for coming stop events):
time + maxRate * (maxMeasure - measure) + K ≤ 2⁶³ - 1, with
maxRate = 240000 * 10⁶ (at ≥ 1 BPM and length ≤ 10⁶) and maxMeasure = 10⁶. -/
def evBudget (K : ℚ) (e : Event) : Prop :=
  (e.time : ℚ) + 240000000000 * (1000000 - e.measure) + K ≤ 2 ^ 63 - 1

def pairsShapeOk (hex : Bool) : List Char → Bool
  | [] => true
  | c1 :: rest =>
    if utf8Len c1 = 1 then
      match rest with
      | [] => false
      | c2 :: rest2 =>
        if utf8Len c2 = 1 then
          (!hex || (fromStrRadix 16 U16_MAX [c1, c2]).isSome) && pairsShapeOk hex rest2
        else false
    else if utf8Len c1 = 2 then
      (!hex || (fromStrRadix 16 U16_MAX [c1]).isSome) && pairsShapeOk hex rest
    else false

def stopLineOk (line : List Char) : Bool :=
  match stopMatch line with
  | some (_, d) => (parseF32 (trim d)).isSome
  | none => true

def objLineOk (ch : ℕ) (data line : List Char) : Bool :=
  if ch ∈ placementChannels then pairsShapeOk false data
  else if ch = 3 ∨ ch = 8 then pairsShapeOk (ch == 3) data
  else if ch = 9 then pairsShapeOk false data
  else if ch = 2 then (parseF32 data).isSome
  else stopLineOk line

def lineOk (line : List Char) : Bool :=
  match metadataTry line with
  | some _ => true
  | none =>
    match wavMatch line with
    | some _ => true
    | none =>
      match bgaMatch line with
      | some _ => true
      | none =>
        match bpmMatch line with
        | some (_, d) => (parseF32 (trim d)).isSome
        | none =>
          match objMatch line with
          | some (_, ch, d) => objLineOk ch (trim d) line
          | none => stopLineOk line

def builderInv (bb : BmsBuilder) : Prop :=
  bb.timeline_builder.measure_lens.length = 1000 ∧
  ∀ m d, TimelineEvent.STOP m d ∈ bb.timeline_builder.events → 0 ≤ m

/-! # Theorems -/

/-! ## Comparison and cast lemmas -/

lemma ratCmp_of_lt {a b : ℚ} (h : a < b) : ratCmp a b = .lt := by
  unfold ratCmp; rw [if_pos h]

lemma ratCmp_of_gt {a b : ℚ} (h : b < a) : ratCmp a b = .gt := by
  unfold ratCmp
  rw [if_neg (by linarith), if_neg (by intro he; exact absurd he.ge (by linarith))]

lemma intCmp_of_lt {a b : ℤ} (h : a < b) : intCmp a b = .lt := by
  unfold intCmp; rw [if_pos h]

lemma intCmp_of_gt {a b : ℤ} (h : b < a) : intCmp a b = .gt := by
  unfold intCmp; rw [if_neg (by omega), if_neg (by omega)]

lemma binSearchGo_succ (f : α → Ordering) (v : List α) (d : α) (fuel left right : ℕ) :
    binSearchGo f v d (fuel + 1) left right =
      if left < right then
        match f (v.getD (left + (right - left) / 2) d) with
        | .lt => binSearchGo f v d fuel (left + (right - left) / 2 + 1) right
        | .gt => binSearchGo f v d fuel left (left + (right - left) / 2)
        | .eq => .ok (left + (right - left) / 2)
      else .error left := rfl

lemma f32ToI64_eq_floor {q : ℚ} (h0 : 0 ≤ q) (h1 : q ≤ 2 ^ 63 - 1) :
    f32ToI64 q = ⌊q⌋ := by
  unfold f32ToI64 ratTrunc
  rw [if_neg (by linarith)]
  have h2' : (⌊q⌋ : ℚ) ≤ q := Int.floor_le q
  have h3 : (0:ℤ) ≤ ⌊q⌋ := Int.floor_nonneg.mpr h0
  have h4 : ⌊q⌋ ≤ (2:ℤ) ^ 63 - 1 := by
    have hq : (⌊q⌋ : ℚ) ≤ (2:ℚ) ^ 63 - 1 := by
      calc (⌊q⌋ : ℚ) ≤ q := h2'
      _ ≤ 2 ^ 63 - 1 := h1
    exact_mod_cast hq
  omega

/-! ## C1: stop semantics on the concrete chart -/

lemma c1_index_lt_two (x : ℚ) (h0 : 0 < x) (h2 : x < 2) :
    Timeline.last_event_index_in_measure c1Timeline.events x = 0 := by
  have hsearch : binarySearchBy c1Timeline.events default
      (fun e => ratCmp e.measure x) = .error 1 := by
    show binSearchGo _ _ _ (2 + 1) 0 3 = _
    rw [binSearchGo_succ]
    norm_num [c1Timeline, ratCmp_of_gt h2]
    show binSearchGo _ _ _ (1 + 1) 0 1 = _
    rw [binSearchGo_succ]
    norm_num [c1Timeline, ratCmp_of_lt h0]
    show binSearchGo _ _ _ (0 + 1) 1 1 = _
    rw [binSearchGo_succ]
    norm_num
  unfold Timeline.last_event_index_in_measure
  rw [hsearch]
  rfl

lemma c1_index_time_inside (t : ℤ) (h0 : 4000 < t) (h1 : t < 6000) :
    Timeline.last_event_index_in_time c1Timeline.events t = 1 := by
  have hsearch : binarySearchBy c1Timeline.events default
      (fun e => intCmp e.time t) = .error 2 := by
    show binSearchGo _ _ _ (2 + 1) 0 3 = _
    rw [binSearchGo_succ]
    norm_num [c1Timeline, intCmp_of_lt h0]
    show binSearchGo _ _ _ (1 + 1) 2 3 = _
    rw [binSearchGo_succ]
    norm_num [c1Timeline, intCmp_of_gt h1]
    show binSearchGo _ _ _ (0 + 1) 2 2 = _
    rw [binSearchGo_succ]
    norm_num
  unfold Timeline.last_event_index_in_time
  rw [hsearch]
  rfl

lemma c1_time_from_measure_near (x : ℚ) (h0 : 0 < x) (h2 : x < 2) :
    c1Timeline.time_from_measure x = some ⌊x * 2000⌋ := by
  unfold Timeline.time_from_measure
  rw [c1_index_lt_two x h0 h2]
  show some _ = _
  have harith : (x - (0:ℚ)) * (240000 / 120) * 1 = x * 2000 := by ring
  norm_num [c1Timeline, harith]
  rw [f32ToI64_eq_floor (by positivity) (by nlinarith)]

lemma c1_measure_from_time_inside (t : ℤ) (h0 : 4000 < t) (h1 : t < 6000) :
    c1Timeline.measure_from_time t = some 2 := by
  unfold Timeline.measure_from_time
  rw [c1_index_time_inside t h0 h1]
  rfl

/-- C1: with base tempo 120 and a single 192-unit stop at measure 2, the
builder emits two consecutive events sharing measure 2 with identical bpm and
length whose times differ by exactly (240000/120)·(192/192) = 2000 ms;
`time_from_measure 2` lands past the pause at 6000 ms = 4000 ms + 2000 ms,
while `time_from_measure (2-ε)` equals 4000 − 2000ε ms up to the
integer-millisecond truncation (so its ε→0 limit is the pre-stop instant
4000 ms); and `measure_from_time` returns exactly measure 2 for every time
strictly inside the 4000–6000 ms pause. -/
theorem C1_stop_semantics (ε : ℚ) (hε0 : 0 < ε) (hε1 : ε ≤ 1) (t : ℤ)
    (ht0 : 4000 < t) (ht1 : t < 6000) :
    c1Builder.build = some c1Timeline ∧
    (c1Timeline.events.map fun e => (e.time, e.measure, e.bpm, e.length)) =
      [(0, 0, 120, 1), (4000, 2, 120, 1), (6000, 2, 120, 1)] ∧
    c1Timeline.time_from_measure 2 = some 6000 ∧
    (∃ t' : ℤ, c1Timeline.time_from_measure (2 - ε) = some t' ∧
      (4000 - 2000 * ε - 1 : ℚ) < (t' : ℚ) ∧ (t' : ℚ) ≤ 4000 - 2000 * ε) ∧
    c1Timeline.measure_from_time t = some 2 := by
  refine ⟨by with_unfolding_all rfl, by with_unfolding_all rfl, by with_unfolding_all rfl,
    ?_, c1_measure_from_time_inside t ht0 ht1⟩
  have h0 : (0:ℚ) < 2 - ε := by linarith
  have h2 : (2:ℚ) - ε < 2 := by linarith
  refine ⟨⌊(2 - ε) * 2000⌋, c1_time_from_measure_near (2 - ε) h0 h2, ?_, ?_⟩
  · have hfl := Int.sub_one_lt_floor ((2 - ε) * 2000)
    nlinarith [hfl]
  · have hfl := Int.floor_le ((2 - ε) * 2000)
    nlinarith [hfl]

/-- Witness for C1 at ε = 1/2 and t = 5000 ms. -/
theorem C1_stop_semantics_witness :
    c1Builder.build = some c1Timeline ∧
    (c1Timeline.events.map fun e => (e.time, e.measure, e.bpm, e.length)) =
      [(0, 0, 120, 1), (4000, 2, 120, 1), (6000, 2, 120, 1)] ∧
    c1Timeline.time_from_measure 2 = some 6000 ∧
    (∃ t' : ℤ, c1Timeline.time_from_measure (2 - 1/2) = some t' ∧
      (4000 - 2000 * (1/2) - 1 : ℚ) < (t' : ℚ) ∧ (t' : ℚ) ≤ 4000 - 2000 * (1/2)) ∧
    c1Timeline.measure_from_time 5000 = some 2 :=
  C1_stop_semantics (1/2) (by norm_num) (by norm_num) 5000 (by norm_num) (by norm_num)

/-! ## C2 counterexample: an abort outside the two malformed-number cases -/

/-- C2 counterexample: the line `#00002:xx` carries no tempo or stop
declaration (neither grammar matches it), yet the load aborts — the
channel-2 length value `xx` is passed to an unchecked float parse. -/
theorem C2_counterexample :
    bpmMatch ("#00002:xx".toList) = none ∧
    stopMatch ("#00002:xx".toList) = none ∧
    parseBms "#00002:xx" = none := by
  refine ⟨?_, ?_, ?_⟩ <;> with_unfolding_all rfl

/-! ## C3 counterexample: equal times with different measures; stop at 0 -/

/-- C3 counterexample: two positive-tempo commands 1/1000 of a measure apart
produce consecutive events sharing time 0 with different measures (the 0.94 ms
gap truncates to 0 ms); and a single non-negative stop at measure 0 makes the
build panic (`none`), so the built event list does not even exist. -/
theorem C3_counterexample :
    (∃ e1 e2 : Event,
      ((TimelineBuilder.new.with_event (.BPM 0 254)).with_event
          (.BPM (1/1000) 255)).build = some ⟨[e1, e2]⟩ ∧
      e1.time = e2.time ∧ e1.measure ≠ e2.measure) ∧
    (TimelineBuilder.new.with_event (.STOP 0 192)).build = none := by
  refine ⟨⟨⟨0, 0, 0, 254, 1⟩, ⟨0, 1/1000, 127/500, 255, 1⟩, ?_, rfl, by norm_num⟩, ?_⟩
  · with_unfolding_all rfl
  · with_unfolding_all rfl

/-! ## C7 counterexample: a present key decoding to 0 sets the base tempo -/

/-- C7 counterexample: `#BPM00 150` carries the present two-character key
token `00`; the claim says it must be inserted in the named-tempo table, but
the code branches on the decoded key value (0), sets the base tempo to 150
and leaves the table empty. -/
theorem C7_counterexample :
    bpmMatch ("#BPM00 150".toList) = some (['0', '0'], ['1', '5', '0']) ∧
    (parseLineIntoBms ("#BPM00 150".toList) BmsBuilder.new).map
      (fun b => (b.timeline_builder.base_bpm, b.timeline_builder.bpms)) =
      some (150, []) := by
  refine ⟨?_, ?_⟩ <;> with_unfolding_all rfl

/-! ## C6: a builder holding only a base tempo -/

/-- C6: building a timeline from a builder holding only a base tempo — no
tempo changes, stops, or measure-length overrides — yields exactly one
event, at measure 0 and time 0 (with that tempo and length 1). -/
theorem C6_base_only_single_event (base : ℚ) :
    (TimelineBuilder.new.with_base_bpm base).build =
      some ⟨[{ time := 0, measure := 0, pos := 0, bpm := base, length := 1 }]⟩ := by
  with_unfolding_all rfl

/-! ## C10: the 130 BPM default -/

/-- C10: a fresh builder defaults to 130 BPM, so an input with no tempo
declaration at all produces a timeline whose single event is at measure 0,
time 0, with bpm 130. -/
theorem C10_default_bpm_130 :
    TimelineBuilder.new.base_bpm = 130 ∧
    TimelineBuilder.new.build =
      some ⟨[{ time := 0, measure := 0, pos := 0, bpm := 130, length := 1 }]⟩ ∧
    (parseBms "#TITLE x\x0a#00111:AA").map
      (fun bms => bms.timeline.events.map fun e => (e.time, e.measure, e.bpm)) =
      some [(0, 0, 130)] := by
  refine ⟨rfl, ?_, ?_⟩
  · with_unfolding_all rfl
  · with_unfolding_all rfl

/-! ## C4: decoding invalid tokens -/

lemma parseDigits_none {radix : ℕ} {cs : List Char} (acc : ℕ)
    (h : ∃ c ∈ cs, charToDigit radix c = none) : parseDigits radix acc cs = none := by
  induction cs generalizing acc with
  | nil => obtain ⟨c, hc, _⟩ := h; exact absurd hc (List.not_mem_nil c)
  | cons c cs ih =>
    obtain ⟨c', hc', hnone⟩ := h
    unfold parseDigits
    rcases List.mem_cons.mp hc' with rfl | hmem
    · rw [hnone]
    · cases hd : charToDigit radix c with
      | none => rfl
      | some d => exact ih _ ⟨c', hmem, hnone⟩

lemma parseDigits_some {radix : ℕ} {cs : List Char} (acc : ℕ)
    (h : ∀ c ∈ cs, (charToDigit radix c).isSome) :
    parseDigits radix acc cs =
      some (cs.foldl (fun a c => a * radix + (charToDigit radix c).getD 0) acc) := by
  induction cs generalizing acc with
  | nil => rfl
  | cons c cs ih =>
    have hc := h c (List.mem_cons_self c cs)
    obtain ⟨d, hd⟩ := Option.isSome_iff_exists.mp hc
    unfold parseDigits
    rw [hd]
    show parseDigits radix (acc * radix + d) cs = _
    rw [ih _ (fun c' hc' => h c' (List.mem_cons_of_mem c hc'))]
    simp [hd]

/-- C4 counterexample: the one-character token `Z` is not a valid
two-character base-36 token, yet it decodes to Key(35), not Key(0); so does
`+Z` (a token containing the non-base-36 character `+`). -/
theorem C4_counterexample :
    ¬ isValidBase36Pair ['Z'] ∧
    Alphanumeric.from_str ['Z'] = ⟨35⟩ ∧
    Alphanumeric.from_str ['+', 'Z'] = ⟨35⟩ ∧
    Alphanumeric.from_str ['Z'] ≠ ⟨0⟩ := by
  refine ⟨by decide, by with_unfolding_all rfl, by with_unfolding_all rfl, by decide⟩

/-- C4 (amended): decode yields Key(0) precisely when Rust's unsigned
base-36 parse rejects the token — nothing after the optional leading `+`, a
character that is not a base-36 digit, or 64-bit overflow — or when the
accepted digit run evaluates to zero (`0`, `00`, `+000`).  Shortness as such
is NOT mapped to Key(0): the one-character token `Z` decodes to 35
(`C4_counterexample`). -/
theorem C4_amended (cs : List Char) :
    Alphanumeric.from_str cs = ⟨0⟩ ↔
      plusDigits cs = [] ∨ (∃ c ∈ plusDigits cs, charToDigit 36 c = none) ∨
      USIZE_MAX < digitsVal 36 (plusDigits cs) ∨ digitsVal 36 (plusDigits cs) = 0 := by
  constructor
  · intro h
    by_cases he : plusDigits cs = []
    · exact Or.inl he
    by_cases hinv : ∃ c ∈ plusDigits cs, charToDigit 36 c = none
    · exact Or.inr (Or.inl hinv)
    push_neg at hinv
    have hall : ∀ c ∈ plusDigits cs, (charToDigit 36 c).isSome := by
      intro c hc
      cases hd : charToDigit 36 c with
      | none => exact absurd hd (hinv c hc)
      | some v => rfl
    have hp : parseDigits 36 0 (plusDigits cs) = some (digitsVal 36 (plusDigits cs)) := by
      rw [parseDigits_some 0 hall]
      rfl
    by_cases hov : USIZE_MAX < digitsVal 36 (plusDigits cs)
    · exact Or.inr (Or.inr (Or.inl hov))
    refine Or.inr (Or.inr (Or.inr ?_))
    unfold Alphanumeric.from_str fromStrRadix at h
    rw [if_neg (by simpa using he)] at h
    rw [hp] at h
    dsimp only at h
    rw [if_pos (Nat.not_lt.mp hov)] at h
    have := congrArg Alphanumeric.key h
    simpa using this
  · intro h
    unfold Alphanumeric.from_str fromStrRadix
    rcases h with h | h | h | h
    · rw [h]
      rfl
    · rw [parseDigits_none 0 h]
      by_cases he : (plusDigits cs).isEmpty <;> simp [he]
    · by_cases he : (plusDigits cs).isEmpty
      · simp [he]
      · cases hp : parseDigits 36 0 (plusDigits cs) with
        | none => simp [he, hp]
        | some v =>
          have hv : v = digitsVal 36 (plusDigits cs) := by
            by_cases hall : ∀ c ∈ plusDigits cs, (charToDigit 36 c).isSome
            · rw [parseDigits_some 0 hall] at hp
              unfold digitsVal
              exact (Option.some_inj.mp hp).symm
            · push_neg at hall
              obtain ⟨c, hc, hnone⟩ := hall
              rw [parseDigits_none 0 ⟨c, hc, Option.not_isSome_iff_eq_none.mp hnone⟩] at hp
              exact absurd hp (by simp)
          subst hv
          simp only [he, if_false, hp]
          rw [if_neg (Nat.not_le.mpr h)]
          rfl
    · by_cases he : (plusDigits cs).isEmpty
      · simp [he]
      · by_cases hall : ∀ c ∈ plusDigits cs, (charToDigit 36 c).isSome
        · have hp : parseDigits 36 0 (plusDigits cs) =
              some (digitsVal 36 (plusDigits cs)) := by
            rw [parseDigits_some 0 hall]
            rfl
          rw [h] at hp
          simp only [he, if_false, hp]
          rfl
        · push_neg at hall
          obtain ⟨c, hc, hnone⟩ := hall
          have hp := parseDigits_none 0 ⟨c, hc, Option.not_isSome_iff_eq_none.mp hnone⟩
          simp [he, hp]

/-- Witness for C4 (amended): the rejected token `!@#` and the accepted
zero token `00` decode to Key(0); the accepted one-character token `Z` does
not. -/
theorem C4_amended_witness :
    Alphanumeric.from_str ['!', '@', '#'] = ⟨0⟩ ∧
    Alphanumeric.from_str ['0', '0'] = ⟨0⟩ ∧
    Alphanumeric.from_str ['Z'] ≠ ⟨0⟩ :=
  ⟨(C4_amended ['!', '@', '#']).mpr (Or.inr (Or.inl (by decide))),
   (C4_amended ['0', '0']).mpr (Or.inr (Or.inr (Or.inr (by decide)))),
   fun h => by
     have := (C4_amended ['Z']).mp h
     revert this
     decide⟩

/-! ## C5: encode after decode of valid two-character tokens -/

lemma base36Digit_toNat_lt {c : Char} (h : isBase36Digit c) : c.toNat < 123 := by
  unfold isBase36Digit charToDigit at h
  by_cases h1 : 48 ≤ c.toNat ∧ c.toNat ≤ 57
  · omega
  · by_cases h2 : 97 ≤ c.toNat ∧ c.toNat ≤ 122
    · omega
    · by_cases h3 : 65 ≤ c.toNat ∧ c.toNat ≤ 90
      · omega
      · simp only [h1, h2, h3, if_false] at h
        exact absurd h (by simp)

lemma base36_encode_digit : ∀ n, n < 123 → isBase36Digit (Char.ofNat n) →
    (charToDigit 36 (Char.ofNat n)).getD 0 < 36 ∧
    BASE36.get? ((charToDigit 36 (Char.ofNat n)).getD 0) =
      some (Char.ofNat n).toUpper ∧
    Char.ofNat n ≠ '+' := by decide

/-- C5: for every valid two-character base-36 token (upper- or lower-case),
encoding the decoded key reproduces the token in upper case:
`as_base36 (from_str t) = uppercase t`. -/
theorem C5_encode_decode (c₁ c₂ : Char) (h₁ : isBase36Digit c₁) (h₂ : isBase36Digit c₂) :
    (Alphanumeric.from_str [c₁, c₂]).as_base36 = some [c₁.toUpper, c₂.toUpper] := by
  obtain ⟨hd₁lt, hb₁, hp₁⟩ := by
    have := base36_encode_digit c₁.toNat (base36Digit_toNat_lt h₁)
      (by rw [Char.ofNat_toNat]; exact h₁)
    rwa [Char.ofNat_toNat] at this
  obtain ⟨hd₂lt, hb₂, hp₂⟩ := by
    have := base36_encode_digit c₂.toNat (base36Digit_toNat_lt h₂)
      (by rw [Char.ofNat_toNat]; exact h₂)
    rwa [Char.ofNat_toNat] at this
  obtain ⟨d₁, hd₁⟩ := Option.isSome_iff_exists.mp h₁
  obtain ⟨d₂, hd₂⟩ := Option.isSome_iff_exists.mp h₂
  rw [hd₁] at hd₁lt hb₁
  rw [hd₂] at hd₂lt hb₂
  simp only [Option.getD_some] at hd₁lt hb₁ hd₂lt hb₂
  have hplus : plusDigits [c₁, c₂] = [c₁, c₂] := by
    unfold plusDigits
    split
    · rename_i heq; rw [List.cons.injEq] at heq; exact absurd heq.1 hp₁
    · rfl
  have hkey : Alphanumeric.from_str [c₁, c₂] = ⟨d₁ * 36 + d₂⟩ := by
    unfold Alphanumeric.from_str fromStrRadix
    rw [hplus]
    rw [parseDigits_some 0 (by
      intro c hc
      rcases List.mem_cons.mp hc with rfl | hc
      · rw [hd₁]; rfl
      · rcases List.mem_cons.mp hc with rfl | hc
        · rw [hd₂]; rfl
        · exact absurd hc (List.not_mem_nil c))]
    simp only [List.foldl, hd₁, hd₂, Option.getD_some]
    rw [if_neg (by simp)]
    have hle : (0 * 36 + d₁) * 36 + d₂ ≤ USIZE_MAX := by
      unfold USIZE_MAX
      calc (0 * 36 + d₁) * 36 + d₂ ≤ 35 * 36 + 35 := by omega
      _ ≤ 2 ^ 64 - 1 := by norm_num
    rw [if_pos hle]
    simp only [Option.getD_some, Alphanumeric.mk.injEq]
    ring
  rw [hkey]
  unfold Alphanumeric.as_base36
  have hdiv : (d₁ * 36 + d₂) / 36 = d₁ := by omega
  have hmod : (d₁ * 36 + d₂) % 36 = d₂ := by omega
  rw [hdiv, hmod, hb₁, hb₂]
  rfl

/-- Witness for C5 on the token `x5` (decodes to key 1193, re-encodes `X5`). -/
theorem C5_encode_decode_witness :
    (Alphanumeric.from_str ['x', '5']).as_base36 = some ['x'.toUpper, '5'.toUpper] :=
  C5_encode_decode 'x' '5' (by decide) (by decide)

/-! ## C8: placement-channel slots -/

lemma slotObjAt_succ (m total ch : ℕ) (iter : ℚ) (p : (Char × Char) × ℕ) :
    slotObjAt m total ch iter (Prod.map id Nat.succ p) = slotObjAt m total ch (iter + 2) p := by
  obtain ⟨⟨c1, c2⟩, j⟩ := p
  unfold slotObjAt
  simp only [Prod.map, id]
  by_cases hk : (Alphanumeric.from_str [c1, c2]).key = 0
  · rw [if_pos hk, if_pos hk]
  · rw [if_neg hk, if_neg hk]
    rw [show (iter + 2 * ((Nat.succ j : ℕ) : ℚ)) = ((iter + 2) + 2 * (j : ℚ)) by push_cast; ring]

lemma utf8Length_ascii : ∀ {data : List Char}, (∀ c ∈ data, utf8Len c = 1) →
    utf8Length data = data.length := by
  intro data
  induction data with
  | nil => intro _; rfl
  | cons c rest ih =>
    intro h
    unfold utf8Length at ih ⊢
    simp only [List.map_cons, List.sum_cons, h c (List.mem_cons_self c rest),
      ih (fun x hx => h x (List.mem_cons_of_mem c hx)), List.length_cons]
    omega

lemma placementGo_spec (m total ch : ℕ) :
    ∀ (k : ℕ) (data : List Char) (iter : ℕ), data.length = 2 * k →
    (∀ c ∈ data, utf8Len c = 1) →
    placementGo m total ch iter data =
      some (((chunkPairs data).zip (List.range k)).filterMap
        (slotObjAt m total ch (iter : ℚ))) := by
  intro k
  induction k with
  | zero =>
    intro data iter hlen _
    rw [List.length_eq_zero.mp hlen]
    rfl
  | succ k' ih =>
    intro data iter hlen hascii
    match data with
    | [] => simp at hlen
    | [c] => simp at hlen; omega
    | c1 :: c2 :: rest =>
      have hlen' : rest.length = 2 * k' := by simp at hlen; omega
      unfold placementGo
      rw [if_pos (hascii c1 (by simp))]
      dsimp only
      rw [if_pos (hascii c2 (by simp))]
      rw [ih rest (iter + 2) hlen' (fun x hx => hascii x (by simp [hx]))]
      simp only [Option.pure_def, Option.bind_eq_bind, Option.some_bind]
      have htail : ((chunkPairs rest).zip (List.map Nat.succ (List.range k'))).filterMap
          (slotObjAt m total ch (iter : ℚ)) =
          ((chunkPairs rest).zip (List.range k')).filterMap
          (slotObjAt m total ch (((iter : ℕ) + 2 : ℕ) : ℚ)) := by
        rw [List.zip_map_right, List.filterMap_map]
        refine List.filterMap_congr (fun p _ => ?_)
        have hsucc := slotObjAt_succ m total ch (iter : ℚ) p
        rw [Function.comp_apply, hsucc]
        congr 1
        push_cast
        ring
      show _ = some ((((c1, c2) :: chunkPairs rest).zip (List.range (k' + 1))).filterMap _)
      rw [List.range_succ_eq_map, List.zip_cons_cons, List.filterMap_cons, htail]
      by_cases hk : (Alphanumeric.from_str [c1, c2]).key = 0
      · rw [if_pos hk]
        have hhead : slotObjAt m total ch (iter : ℚ) ((c1, c2), 0) = none := by
          unfold slotObjAt; rw [if_pos hk]
        rw [hhead]
      · rw [if_neg hk]
        have hhead : slotObjAt m total ch (iter : ℚ) ((c1, c2), 0) =
            some { time := 0, measure := (m : ℚ) + (iter : ℚ) / (total : ℚ), channel := ch,
                   objtype := if ch = 4 then .BGA (Alphanumeric.from_str [c1, c2])
                              else if ch = 1 then .Auto (Alphanumeric.from_str [c1, c2])
                              else .Note (Alphanumeric.from_str [c1, c2]),
                   hit_offset := none, longnote_hit_offset := none } := by
          unfold slotObjAt
          rw [if_neg hk]
          rw [show ((iter : ℚ) + 2 * (((0:ℕ)) : ℚ)) = (iter : ℚ) by push_cast; ring]
        rw [hhead]

/-- C8 counterexample: slots are two BYTES, not two characters.  On the
6-character payload `00AAéé` (8 bytes, `é` is 2 bytes) the program places the
`AA` object at measure 2/8 = 1/4, which is none of the character-slot
positions i/3 the claim predicts; and on the 2-character payload `aé`
(3 bytes) the slice `&data[0..2]` splits the `é` and the whole load panics
instead of skipping a placeholder. -/
theorem C8_counterexample :
    placementGo 0 (utf8Length ['0', '0', 'A', 'A', 'é', 'é']) 11 0
        ['0', '0', 'A', 'A', 'é', 'é'] =
      some [{ time := 0, measure := 1/4, channel := 11, objtype := .Note ⟨370⟩,
              hit_offset := none, longnote_hit_offset := none }] ∧
    (∀ i : ℕ, (1/4 : ℚ) ≠ (i : ℚ) / 3) ∧
    objApply 1 1 ['a', 'é'] BmsBuilder.new = none ∧
    parseBms "#00101:aé" = none := by
  refine ⟨?_, ?_, ?_, ?_⟩
  · with_unfolding_all rfl
  · intro i h
    rw [div_eq_div_iff (by norm_num) (by norm_num)] at h
    have h3 : (3 : ℚ) = 4 * (i : ℚ) := by linarith
    have h4 : (3 : ℕ) = 4 * i := by exact_mod_cast h3
    omega
  · with_unfolding_all rfl
  · with_unfolding_all rfl

/-- C8 (amended): for an all-ASCII payload — where byte offsets and character
positions coincide — a placement-channel line with measure `m` and a
2n-character payload appends exactly one object per slot whose decoded key is
non-zero, slot `i` (0 ≤ i < n) landing at score position m + i/n with the
channel's object type; a Key(0) slot produces nothing.  (`C8_counterexample`
shows the character-slot reading is wrong for multi-byte payloads.) -/
theorem C8_placement_slots (m ch n : ℕ) (data : List Char) (b : BmsBuilder)
    (hch : ch ∈ placementChannels) (hlen : data.length = 2 * n)
    (hascii : ∀ c ∈ data, utf8Len c = 1) :
    objApply m ch data b =
      some (true, { b with objects := b.objects ++
        ((chunkPairs data).zip (List.range n)).filterMap (slotObject m ch n) }) := by
  unfold objApply
  rw [if_pos hch]
  rw [utf8Length_ascii hascii]
  rw [placementGo_spec m data.length ch n data 0 hlen hascii]
  simp only [Option.pure_def, Option.bind_eq_bind, Option.some_bind]
  have hcongr : ((chunkPairs data).zip (List.range n)).filterMap
        (slotObjAt m data.length ch (((0:ℕ)) : ℚ)) =
      ((chunkPairs data).zip (List.range n)).filterMap (slotObject m ch n) := by
    refine List.filterMap_congr (fun p hp => ?_)
    obtain ⟨⟨c1, c2⟩, j⟩ := p
    have hj : j < n := List.mem_range.mp (List.of_mem_zip hp).2
    unfold slotObjAt slotObject
    by_cases hk : (Alphanumeric.from_str [c1, c2]).key = 0
    · rw [if_pos hk, if_pos hk]
    · rw [if_neg hk, if_neg hk]
      have hms : (((0:ℕ)) : ℚ) + 2 * (j : ℚ) = 2 * (j : ℚ) := by push_cast; ring
      rw [hms, hlen]
      have h2n : ((2 * n : ℕ) : ℚ) = 2 * (n : ℚ) := by push_cast; ring
      rw [h2n, mul_div_mul_left (j : ℚ) (n : ℚ) two_ne_zero]
  rw [hcongr]

/-- Witness for C8 (amended): the 8-character ASCII payload `00AB0001` on
channel 01 at measure 1 yields exactly the two objects AB at measure 1.25 and
01 at measure 1.75 (slots 0 and 2 are Key(0) placeholders). -/
theorem C8_placement_slots_witness :
    objApply 1 1 ("00AB0001".toList) BmsBuilder.new =
      some (true, { BmsBuilder.new with objects := BmsBuilder.new.objects ++
        ((chunkPairs ("00AB0001".toList)).zip (List.range 4)).filterMap (slotObject 1 1 4) }) ∧
    (((chunkPairs ("00AB0001".toList)).zip (List.range 4)).filterMap (slotObject 1 1 4)).map
      (fun o => (o.measure, o.objtype)) =
      [(1 + 1/4, .Auto ⟨371⟩), (1 + 3/4, .Auto ⟨1⟩)] :=
  ⟨C8_placement_slots 1 1 4 _ _ (by decide) (by decide) (by decide),
   by with_unfolding_all rfl⟩

/-! ## C9: fatal malformed tempo value vs. silently dropped missing key -/

lemma alLookup_eq_none {k : Alphanumeric} :
    ∀ l : List (Alphanumeric × ℚ), (∀ v, (k, v) ∉ l) → alLookup k l = none := by
  intro l h
  induction l with
  | nil => rfl
  | cons p rest ih =>
    obtain ⟨k', v'⟩ := p
    unfold alLookup
    rw [if_neg (by
      intro he
      exact h v' (by rw [he]; exact List.mem_cons_self _ _))]
    exact ih (fun v hv => h v (List.mem_cons_of_mem _ hv))

/-- C9: a tempo declaration whose numeric value fails to parse aborts the
line and with it the whole load, whereas a channel-8/9 slot whose key is
absent from the named tempo/stop table aborts nothing — the lookup yields 0,
the slot is filtered, and no command reaches the timeline builder.  The two
slot clauses are stated for one-byte slot characters, the shape in which the
byte-slicing source forms a two-character slot at all. -/
theorem C9_fatal_vs_missing :
    (∀ (line k d : List Char) (bb : BmsBuilder),
      metadataTry line = none → wavMatch line = none → bgaMatch line = none →
      bpmMatch line = some (k, d) → parseF32 (trim d) = none →
      parseLineIntoBms line bb = none) ∧
    (∀ (text : String) (ls1 ls2 : List (List Char)) (l : List Char) (b : BmsBuilder),
      splitLines text.toList = ls1 ++ l :: ls2 →
      ls1.foldlM (fun b l => parseLineIntoBms l b) BmsBuilder.new = some b →
      parseLineIntoBms l b = none →
      parseBms text = none) ∧
    (∀ (tb : TimelineBuilder) (key : Alphanumeric),
      (∀ v, (key, v) ∉ tb.bpms) → tb.find_bpm key = 0) ∧
    (∀ (tb : TimelineBuilder) (key : Alphanumeric),
      (∀ v, (key, v) ∉ tb.stops) → tb.find_stop key = 0) ∧
    (∀ (m total iter : ℕ) (tb : TimelineBuilder) (c1 c2 : Char) (rest : List Char),
      utf8Len c1 = 1 → utf8Len c2 = 1 →
      tb.find_bpm (Alphanumeric.from_str [c1, c2]) = 0 →
      bpmChannelGo m total 8 tb iter (c1 :: c2 :: rest) =
        bpmChannelGo m total 8 tb (iter + 2) rest) ∧
    (∀ (m total iter : ℕ) (tb : TimelineBuilder) (c1 c2 : Char) (rest : List Char),
      utf8Len c1 = 1 → utf8Len c2 = 1 →
      tb.find_stop (Alphanumeric.from_str [c1, c2]) = 0 →
      stopChannelGo m total tb iter (c1 :: c2 :: rest) =
        stopChannelGo m total tb (iter + 2) rest) := by
  refine ⟨?_, ?_, ?_, ?_, ?_, ?_⟩
  · intro line k d bb hm hw hg hb hv
    unfold parseLineIntoBms
    simp only [hm, hw, hg, hb, hv]
  · intro text ls1 ls2 l b hsplit hfold hline
    unfold parseBms foldBuilder
    rw [hsplit, List.foldlM_append, hfold]
    show ((parseLineIntoBms l b).bind _).bind _ = none
    rw [hline]
    rfl
  · intro tb key h
    unfold TimelineBuilder.find_bpm
    rw [alLookup_eq_none tb.bpms h]
    rfl
  · intro tb key h
    unfold TimelineBuilder.find_stop
    rw [alLookup_eq_none tb.stops h]
    rfl
  · intro m total iter tb c1 c2 rest hu1 hu2 h
    have hstep : bpmChannelGo m total 8 tb iter (c1 :: c2 :: rest) =
        (bpmChannelGo m total 8 tb (iter + 2) rest).bind
          (fun tail =>
            if (1:ℚ)/1000000 < |tb.find_bpm (Alphanumeric.from_str [c1, c2]) - 0|
            then some (.BPM ((m:ℚ) + (iter:ℚ)/(total:ℚ))
              (tb.find_bpm (Alphanumeric.from_str [c1, c2])) :: tail)
            else some tail) := by
      conv_lhs => unfold bpmChannelGo
      rw [if_pos hu1]
      dsimp only
      rw [if_pos hu2]
      rw [if_neg (by norm_num)]
      simp only [Option.pure_def, Option.bind_eq_bind, Option.some_bind]
    rw [hstep, h]
    cases hrec : bpmChannelGo m total 8 tb (iter + 2) rest with
    | none => rfl
    | some t =>
      simp only [Option.some_bind]
      rw [if_neg (by norm_num)]
  · intro m total iter tb c1 c2 rest hu1 hu2 h
    have hstep : stopChannelGo m total tb iter (c1 :: c2 :: rest) =
        (stopChannelGo m total tb (iter + 2) rest).bind
          (fun tail =>
            if tb.find_stop (Alphanumeric.from_str [c1, c2]) ≠ 0
            then some (.STOP ((m:ℚ) + (iter:ℚ)/(total:ℚ))
              (tb.find_stop (Alphanumeric.from_str [c1, c2])) :: tail)
            else some tail) := by
      conv_lhs => unfold stopChannelGo
      rw [if_pos hu1]
      dsimp only
      rw [if_pos hu2]
      simp only [Option.pure_def, Option.bind_eq_bind, Option.some_bind]
    rw [hstep, h]
    cases hrec : stopChannelGo m total tb (iter + 2) rest with
    | none => rfl
    | some t =>
      simp only [Option.some_bind]
      rw [if_neg (by norm_num)]

/-- Witness for C9: the malformed `#BPM zzz` aborts a whole two-line load;
the missing key `AA` reads as 0 from a fresh builder and its channel-8 slot
is dropped without effect. -/
theorem C9_fatal_vs_missing_witness :
    parseBms "#BPM zzz\x0a#00101:AA" = none ∧
    TimelineBuilder.new.find_bpm ⟨371⟩ = 0 ∧
    bpmChannelGo 0 2 8 TimelineBuilder.new 0 ['A', 'A'] =
      bpmChannelGo 0 2 8 TimelineBuilder.new 2 [] := by
  refine ⟨?_, ?_, ?_⟩
  · exact C9_fatal_vs_missing.2.1 _ [] [("#00101:AA".toList)] ("#BPM zzz".toList)
      BmsBuilder.new (by with_unfolding_all rfl) rfl
      (C9_fatal_vs_missing.1 ("#BPM zzz".toList) [] ("zzz".toList) BmsBuilder.new
        (by with_unfolding_all rfl) (by with_unfolding_all rfl) (by with_unfolding_all rfl)
        (by with_unfolding_all rfl) (by with_unfolding_all rfl))
  · exact C9_fatal_vs_missing.2.2.1 TimelineBuilder.new ⟨371⟩
      (fun v hv => List.not_mem_nil _ hv)
  · exact C9_fatal_vs_missing.2.2.2.2.1 0 2 0 TimelineBuilder.new 'A' 'A' []
      (by decide) (by decide) (by with_unfolding_all rfl)

/-! ## C7 (amended): the base-tempo branch keys on the decoded value -/

/-- C7 (amended): on a tempo-declaration line, the parser branches on the
decoded key *value*: any key token decoding to Key(0) — the empty token, but
also the present tokens `00`, `0`, or an invalid token — sets the chart's
base tempo, and only keys decoding to a non-zero value populate the
named-tempo table. -/
theorem C7_amended (line k d : List Char) (v : ℚ) (bb : BmsBuilder)
    (hm : metadataTry line = none) (hw : wavMatch line = none) (hg : bgaMatch line = none)
    (hb : bpmMatch line = some (k, d)) (hv : parseF32 (trim d) = some v) :
    parseLineIntoBms line bb = some (
      if (Alphanumeric.from_str (trim k)).key = 0 then
        { bb with timeline_builder := bb.timeline_builder.with_base_bpm v }
      else bb.with_bpm (Alphanumeric.from_str (trim k)) v) ∧
    (Alphanumeric.from_str []).key = 0 ∧
    (Alphanumeric.from_str ['0', '0']).key = 0 ∧
    (Alphanumeric.from_str ['0']).key = 0 := by
  refine ⟨?_, by decide, by decide, by decide⟩
  unfold parseLineIntoBms
  simp only [hm, hw, hg, hb, hv]
  by_cases hk : (Alphanumeric.from_str (trim k)).key = 0
  · rw [if_pos hk, if_pos hk]
  · rw [if_neg hk, if_neg hk]

/-- Witness for C7 (amended) on `#BPMA1 150` (key `A1` decodes to 361 ≠ 0,
so the named table is populated). -/
theorem C7_amended_witness :
    parseLineIntoBms ("#BPMA1 150".toList) BmsBuilder.new = some (
      if (Alphanumeric.from_str (trim (['A', '1']))).key = 0 then
        { BmsBuilder.new with timeline_builder :=
            BmsBuilder.new.timeline_builder.with_base_bpm 150 }
      else BmsBuilder.new.with_bpm (Alphanumeric.from_str (trim (['A', '1']))) 150) ∧
    (Alphanumeric.from_str []).key = 0 ∧
    (Alphanumeric.from_str ['0', '0']).key = 0 ∧
    (Alphanumeric.from_str ['0']).key = 0 :=
  C7_amended ("#BPMA1 150".toList) ['A', '1'] ['1', '5', '0'] 150 BmsBuilder.new
    (by with_unfolding_all rfl) (by with_unfolding_all rfl) (by with_unfolding_all rfl)
    (by with_unfolding_all rfl) (by with_unfolding_all rfl)

/-! ## Sorting and binary-search lemmas -/

lemma mem_insSorted {le : α → α → Prop} [DecidableRel le] {x a : α} :
    ∀ l : List α, a ∈ insSorted le x l ↔ a = x ∨ a ∈ l := by
  intro l
  induction l with
  | nil => simp [insSorted]
  | cons y ys ih =>
    unfold insSorted
    by_cases h : le y x
    · rw [if_pos h]
      simp only [List.mem_cons, ih]
      tauto
    · rw [if_neg h]
      simp only [List.mem_cons]

lemma mem_insSort {le : α → α → Prop} [DecidableRel le] {a : α} (l : List α) :
    a ∈ insSort le l ↔ a ∈ l := by
  unfold insSort
  suffices h : ∀ acc : List α,
      (a ∈ l.foldl (fun acc x => insSorted le x acc) acc ↔ a ∈ acc ∨ a ∈ l) by
    rw [h []]; simp
  induction l with
  | nil => intro acc; simp
  | cons x xs ih =>
    intro acc
    show a ∈ xs.foldl _ (insSorted le x acc) ↔ _
    rw [ih (insSorted le x acc), mem_insSorted]
    simp only [List.mem_cons]
    tauto

lemma pairwise_insSorted {le : α → α → Prop} [DecidableRel le]
    (htot : ∀ a b, le a b ∨ le b a) (htrans : ∀ a b c, le a b → le b c → le a c)
    {x : α} : ∀ l : List α, l.Pairwise le → (insSorted le x l).Pairwise le := by
  intro l hl
  induction l with
  | nil => simp [insSorted]
  | cons y ys ih =>
    rw [List.pairwise_cons] at hl
    obtain ⟨hy, hys⟩ := hl
    unfold insSorted
    by_cases h : le y x
    · rw [if_pos h]
      rw [List.pairwise_cons]
      refine ⟨?_, ih hys⟩
      intro b hb
      rcases (mem_insSorted ys).mp hb with rfl | hb
      · exact h
      · exact hy b hb
    · rw [if_neg h]
      have hxy : le x y := (htot x y).resolve_right h
      rw [List.pairwise_cons]
      refine ⟨?_, List.pairwise_cons.mpr ⟨hy, hys⟩⟩
      intro b hb
      rcases List.mem_cons.mp hb with rfl | hb
      · exact hxy
      · exact htrans x y b hxy (hy b hb)

lemma pairwise_insSort {le : α → α → Prop} [DecidableRel le]
    (htot : ∀ a b, le a b ∨ le b a) (htrans : ∀ a b c, le a b → le b c → le a c)
    (l : List α) : (insSort le l).Pairwise le := by
  unfold insSort
  suffices h : ∀ acc : List α, acc.Pairwise le →
      (l.foldl (fun acc x => insSorted le x acc) acc).Pairwise le from
    h [] (by simp)
  induction l with
  | nil => intro acc h; exact h
  | cons x xs ih =>
    intro acc h
    exact ih _ (pairwise_insSorted htot htrans _ h)

lemma binSearchGo_ok {f : α → Ordering} {v : List α} {d : α} :
    ∀ (fuel left right i : ℕ), right ≤ v.length →
    binSearchGo f v d fuel left right = .ok i → i < v.length ∧ f (v.getD i d) = .eq := by
  intro fuel
  induction fuel with
  | zero =>
    intro left right i hr h
    exact absurd h (by simp [binSearchGo])
  | succ fuel ih =>
    intro left right i hr h
    rw [binSearchGo_succ] at h
    by_cases hlr : left < right
    · rw [if_pos hlr] at h
      cases hf : f (v.getD (left + (right - left) / 2) d) with
      | lt => rw [hf] at h; exact ih _ _ _ hr h
      | gt =>
        rw [hf] at h
        exact ih _ _ _ (le_trans (by omega) hr) h
      | eq =>
        rw [hf] at h
        rw [Except.ok.injEq] at h
        subst h
        exact ⟨by omega, hf⟩
    · rw [if_neg hlr] at h
      exact absurd h (by simp)

lemma binSearchGo_err {f : α → Ordering} {v : List α} {d : α} :
    ∀ (fuel left right i : ℕ), left ≤ right → right ≤ v.length →
    binSearchGo f v d fuel left right = .error i → i ≤ v.length := by
  intro fuel
  induction fuel with
  | zero =>
    intro left right i hlr hr h
    simp only [binSearchGo, Except.error.injEq] at h
    omega
  | succ fuel ih =>
    intro left right i hlr hr h
    rw [binSearchGo_succ] at h
    by_cases hlt : left < right
    · rw [if_pos hlt] at h
      cases hf : f (v.getD (left + (right - left) / 2) d) with
      | lt => rw [hf] at h; exact ih _ _ _ (by omega) hr h
      | gt => rw [hf] at h; exact ih _ _ _ (by omega) (le_trans (by omega) hr) h
      | eq =>
        rw [hf] at h
        exact absurd h (by simp)
    · rw [if_neg hlt] at h
      rw [Except.error.injEq] at h
      omega

lemma ratCmp_eq_iff {a b : ℚ} : ratCmp a b = .eq ↔ a = b := by
  unfold ratCmp
  by_cases h1 : a < b
  · rw [if_pos h1]; constructor
    · intro h; exact absurd h (by simp)
    · intro h; exact absurd h (by intro he; subst he; exact lt_irrefl a h1)
  · rw [if_neg h1]
    by_cases h2 : a = b
    · rw [if_pos h2]; simp [h2]
    · rw [if_neg h2]; constructor
      · intro h; exact absurd h (by simp)
      · intro h; exact absurd h h2

lemma getD_mem {l : List α} {i : ℕ} (h : i < l.length) (d : α) : l.getD i d ∈ l := by
  rw [List.getD_eq_getElem l d h]
  exact List.getElem_mem h

lemma destutter'_head {R : α → α → Prop} [DecidableRel R] (a : α) :
    ∀ l : List α, (List.destutter' R a l).head? = some a := by
  intro l
  induction l generalizing a with
  | nil => rfl
  | cons b t ih =>
    rw [List.destutter']
    by_cases h : R a b
    · rw [if_pos h]; rfl
    · rw [if_neg h]; exact ih a

/-! ## Event-list invariants of the build loop -/


lemma f32ToI64_nonneg {q : ℚ} (h : 0 ≤ q) : 0 ≤ f32ToI64 q := by
  unfold f32ToI64 ratTrunc
  rw [if_neg (by linarith)]
  have h0 := Int.floor_nonneg.mpr h
  have h1 : (0:ℤ) ≤ 2 ^ 63 - 1 := by norm_num
  omega

lemma chain_append_one {l : List Event} {e : Event}
    (h : l.Chain' evLE) (hle : ∀ last ∈ l.getLast?, evLE last e) :
    (l ++ [e]).Chain' evLE := by
  rw [List.chain'_append]
  refine ⟨h, List.chain'_singleton e, ?_⟩
  intro x hx y hy
  have hye : y = e := by
    simp only [List.head?_cons, Option.mem_def, Option.some.injEq] at hy
    exact hy.symm
  subst hye
  exact hle x hx

lemma i64Wrap_eq_self {z : ℤ} (h1 : -(2 ^ 63) ≤ z) (h2 : z < 2 ^ 63) :
    i64Wrap z = z := by
  unfold i64Wrap
  have ha : (0 : ℤ) ≤ z + 2 ^ 63 := by linarith
  have hb : z + 2 ^ 63 < 2 ^ 64 := by
    have h64 : (2 : ℤ) ^ 64 = 2 ^ 63 + 2 ^ 63 := by norm_num
    linarith
  rw [Int.emod_eq_of_lt ha hb]
  ring

lemma f32ToI64_le_self {q : ℚ} (h : 0 ≤ q) : ((f32ToI64 q : ℤ) : ℚ) ≤ q := by
  unfold f32ToI64 ratTrunc
  rw [if_neg (not_lt.mpr h)]
  have hfl : ((⌊q⌋ : ℤ) : ℚ) ≤ q := Int.floor_le q
  have h0 : (0 : ℤ) ≤ ⌊q⌋ := Int.floor_nonneg.mpr h
  have hmaxeq : max (-(2 ^ 63)) (min (2 ^ 63 - 1) ⌊q⌋) = min (2 ^ 63 - 1) ⌊q⌋ := by
    apply max_eq_right
    have hmin0 : (0 : ℤ) ≤ min (2 ^ 63 - 1) ⌊q⌋ := le_min (by norm_num) h0
    linarith
  rw [hmaxeq]
  have hle : min ((2 : ℤ) ^ 63 - 1) ⌊q⌋ ≤ ⌊q⌋ := min_le_right _ _
  calc ((min ((2 : ℤ) ^ 63 - 1) ⌊q⌋ : ℤ) : ℚ) ≤ ((⌊q⌋ : ℤ) : ℚ) := by exact_mod_cast hle
    _ ≤ q := hfl

lemma rate_le {bpm len dm : ℚ} (hb : 1 ≤ bpm) (hl0 : 0 < len) (hl : len ≤ 1000000)
    (hdm : 0 ≤ dm) : dm * (240000 / bpm) * len ≤ dm * 240000000000 := by
  have h1 : 240000 / bpm ≤ 240000 := by
    rw [div_le_iff₀ (by linarith)]
    nlinarith
  calc dm * (240000 / bpm) * len ≤ dm * 240000 * len := by
        apply mul_le_mul_of_nonneg_right _ (le_of_lt hl0)
        exact mul_le_mul_of_nonneg_left h1 hdm
    _ ≤ dm * 240000 * 1000000 := by
        apply mul_le_mul_of_nonneg_left hl
        positivity
    _ = dm * 240000000000 := by ring

lemma stop_rate_le {bpm arg : ℚ} (hb : 1 ≤ bpm) (ha0 : 0 ≤ arg) (ha : arg ≤ 1000000) :
    240000 / bpm * arg / 192 ≤ 1250000000 := by
  have h1 : 240000 / bpm ≤ 240000 := by
    rw [div_le_iff₀ (by linarith)]
    nlinarith
  have h2 : 240000 / bpm * arg ≤ 240000 * 1000000 := by
    have hb0 : (0 : ℚ) ≤ 240000 / bpm := by positivity
    calc 240000 / bpm * arg ≤ 240000 * arg := mul_le_mul_of_nonneg_right h1 ha0
      _ ≤ 240000 * 1000000 := by nlinarith
  calc 240000 / bpm * arg / 192 ≤ 240000 * 1000000 / 192 :=
        (div_le_div_iff_of_pos_right (by norm_num)).mpr h2
    _ = 1250000000 := by norm_num

lemma evBudget_mono {K K' : ℚ} (h : K ≤ K') {e : Event} (hb : evBudget K' e) :
    evBudget K e := by
  unfold evBudget at hb ⊢
  linarith

lemma insSorted_length {le : α → α → Prop} [DecidableRel le] (x : α) :
    ∀ l : List α, (insSorted le x l).length = l.length + 1 := by
  intro l
  induction l with
  | nil => rfl
  | cons y ys ih =>
    unfold insSorted
    by_cases h : le y x
    · rw [if_pos h]
      simp [ih]
    · rw [if_neg h]
      simp

lemma insSort_length_aux {le : α → α → Prop} [DecidableRel le] :
    ∀ (l acc : List α),
    (l.foldl (fun acc x => insSorted le x acc) acc).length = l.length + acc.length := by
  intro l
  induction l with
  | nil => intro acc; simp
  | cons x xs ih =>
    intro acc
    rw [List.foldl_cons, ih (insSorted le x acc), insSorted_length]
    simp only [List.length_cons]
    omega

lemma insSort_length {le : α → α → Prop} [DecidableRel le] (l : List α) :
    (insSort le l).length = l.length := by
  unfold insSort
  rw [insSort_length_aux]
  simp

lemma rleGo_length_le : ∀ (xs : List ℚ) (last : ℚ) (i : ℕ),
    (rleGo last i xs).length ≤ xs.length := by
  intro xs
  induction xs with
  | nil => intro last i; exact le_refl 0
  | cons x rest ih =>
    intro last i
    unfold rleGo
    by_cases h : last ≠ x
    · rw [if_pos h]
      simp only [List.length_cons]
      exact Nat.succ_le_succ (ih x (i + 1))
    · rw [if_neg h]
      simp only [List.length_cons]
      exact le_trans (ih last (i + 1)) (Nat.le_succ _)

lemma rleGo_fst_lt : ∀ (xs : List ℚ) (last : ℚ) (i : ℕ) (p : ℕ × ℚ),
    p ∈ rleGo last i xs → p.1 < 65536 := by
  intro xs
  induction xs with
  | nil => intro last i p h; exact absurd h (List.not_mem_nil p)
  | cons x rest ih =>
    intro last i p h
    unfold rleGo at h
    by_cases hne : last ≠ x
    · rw [if_pos hne] at h
      rcases List.mem_cons.mp h with rfl | h
      · exact Nat.mod_lt i (by norm_num)
      · exact ih x (i + 1) p h
    · rw [if_neg hne] at h
      exact ih last (i + 1) p h

lemma add_event_inv {tl : Timeline} {m bpm len : ℚ} (hbpm : 1 ≤ bpm) (hlen : 0 < len)
    (hlenle : len ≤ 1000000) (hm1 : m ≤ 1000000)
    (hord : tl.events.Chain' evLE) (hpos : ∀ e ∈ tl.events, evOk e)
    (hlast : ∀ e ∈ tl.events.getLast?, e.measure ≤ m)
    {K : ℚ} (hK : 0 ≤ K)
    (hbud : ∀ e ∈ tl.events.getLast?, evBudget K e)
    (hbud0 : tl.events = [] → 0 ≤ m ∧ 240000000000 * 1000000 + K ≤ 2 ^ 63 - 1) :
    (tl.add_event m bpm len).events.Chain' evLE ∧
    (∀ e ∈ (tl.add_event m bpm len).events, evOk e) ∧
    (∀ e ∈ (tl.add_event m bpm len).events.getLast?, e.measure ≤ m) ∧
    (∀ e ∈ (tl.add_event m bpm len).events.getLast?, evBudget K e) ∧
    (tl.add_event m bpm len).events ≠ [] := by
  unfold Timeline.add_event
  cases hl : tl.events.getLast? with
  | none =>
    have hnil : tl.events = [] := List.getLast?_eq_none_iff.mp hl
    obtain ⟨hm0, hbb⟩ := hbud0 hnil
    rw [hnil]
    refine ⟨List.chain'_singleton _, ?_, ?_, ?_, by simp⟩
    · intro e he
      simp only [List.nil_append, List.mem_singleton] at he
      subst he
      exact ⟨hbpm, hlen, hlenle, le_refl 0⟩
    · intro e he
      simp only [List.nil_append, List.getLast?_singleton, Option.mem_def,
        Option.some.injEq] at he
      subst he
      exact le_refl m
    · intro e he
      simp only [List.nil_append, List.getLast?_singleton, Option.mem_def,
        Option.some.injEq] at he
      subst he
      unfold evBudget
      have hrm : (0 : ℚ) ≤ 240000000000 * m := by positivity
      push_cast
      linarith
  | some last =>
    have hmem : last ∈ tl.events := List.mem_of_mem_getLast? hl
    have hlm : last.measure ≤ m := hlast last (by rw [hl]; rfl)
    obtain ⟨hb1, hl0, hlle, ht0⟩ := hpos last hmem
    have hlbud : evBudget K last := hbud last (by rw [hl]; rfl)
    unfold evBudget at hlbud
    dsimp only
    by_cases hup : last.bpm ≠ bpm ∨ last.length ≠ len
    · rw [if_pos hup]
      have hdelta : (0:ℚ) ≤ (m - last.measure) * (240000 / last.bpm) * last.length := by
        apply mul_nonneg (mul_nonneg (by linarith) (by positivity)) (le_of_lt hl0)
      have htime := f32ToI64_nonneg hdelta
      have hincle : ((f32ToI64 ((m - last.measure) * (240000 / last.bpm) * last.length) : ℤ) : ℚ) ≤
          (m - last.measure) * 240000000000 :=
        le_trans (f32ToI64_le_self hdelta) (rate_le hb1 hl0 hlle (by linarith))
      have hnowrapq : (last.time : ℚ) +
          ((f32ToI64 ((m - last.measure) * (240000 / last.bpm) * last.length) : ℤ) : ℚ) ≤
          2 ^ 63 - 1 := by
        have hmr : (0 : ℚ) ≤ 240000000000 * (1000000 - m) := by
          have : (0:ℚ) ≤ 1000000 - m := by linarith
          positivity
        have hsum : (m - last.measure) * 240000000000 +
            240000000000 * (1000000 - m) = 240000000000 * (1000000 - last.measure) := by ring
        linarith
      have hwrap : i64Wrap (last.time +
          f32ToI64 ((m - last.measure) * (240000 / last.bpm) * last.length)) =
          last.time + f32ToI64 ((m - last.measure) * (240000 / last.bpm) * last.length) := by
        apply i64Wrap_eq_self
        · have : (0:ℤ) ≤ last.time +
              f32ToI64 ((m - last.measure) * (240000 / last.bpm) * last.length) := by omega
          linarith [this]
        · have hzq : (last.time +
              f32ToI64 ((m - last.measure) * (240000 / last.bpm) * last.length) : ℚ) ≤
              2 ^ 63 - 1 := by push_cast at hnowrapq ⊢; linarith
          have hz : last.time +
              f32ToI64 ((m - last.measure) * (240000 / last.bpm) * last.length) ≤
              2 ^ 63 - 1 := by exact_mod_cast hzq
          omega
      refine ⟨chain_append_one hord ?_, ?_, ?_, ?_, by simp⟩
      · intro x hx
        have hxl : last = x := by rw [hl] at hx; simpa using hx
        subst hxl
        refine ⟨hlm, ?_⟩
        show last.time ≤ i64Wrap (last.time +
          f32ToI64 ((m - last.measure) * (240000 / last.bpm) * last.length))
        rw [hwrap]
        omega
      · intro e he
        rcases List.mem_append.mp he with he | he
        · exact hpos e he
        · simp only [List.mem_singleton] at he
          subst he
          refine ⟨hbpm, hlen, hlenle, ?_⟩
          show (0:ℤ) ≤ i64Wrap (last.time +
            f32ToI64 ((m - last.measure) * (240000 / last.bpm) * last.length))
          rw [hwrap]
          omega
      · intro e he
        rw [List.getLast?_concat] at he
        obtain rfl := Option.some_inj.mp (Option.mem_def.mp he)
        exact le_refl m
      · intro e he
        rw [List.getLast?_concat] at he
        obtain rfl := Option.some_inj.mp (Option.mem_def.mp he)
        unfold evBudget
        show ((i64Wrap (last.time +
          f32ToI64 ((m - last.measure) * (240000 / last.bpm) * last.length)) : ℤ) : ℚ) +
          240000000000 * (1000000 - m) + K ≤ 2 ^ 63 - 1
        rw [hwrap]
        have hsum : (m - last.measure) * 240000000000 +
            240000000000 * (1000000 - m) = 240000000000 * (1000000 - last.measure) := by ring
        push_cast
        push_cast at hincle
        linarith
    · rw [if_neg hup]
      exact ⟨hord, hpos, hlast, hbud,
        fun hn => by rw [hn] at hl; exact absurd hl (by simp)⟩

lemma add_stop_event_inv {tl : Timeline} {m arg : ℚ} (harg : 0 ≤ arg)
    (hargle : arg ≤ 1000000) (hm1 : m ≤ 1000000)
    (hne : tl.events ≠ [])
    (hord : tl.events.Chain' evLE) (hpos : ∀ e ∈ tl.events, evOk e)
    (hlast : ∀ e ∈ tl.events.getLast?, e.measure ≤ m)
    {K : ℚ} (hK : 0 ≤ K)
    (hbud : ∀ e ∈ tl.events.getLast?, evBudget (K + 1250000000) e) :
    ∃ tl', tl.add_stop_event m arg = some tl' ∧
      tl'.events.Chain' evLE ∧
      (∀ e ∈ tl'.events, evOk e) ∧
      (∀ e ∈ tl'.events.getLast?, e.measure ≤ m) ∧
      (∀ e ∈ tl'.events.getLast?, evBudget K e) ∧
      tl'.events ≠ [] := by
  unfold Timeline.add_stop_event
  cases hl : tl.events.getLast? with
  | none => exact absurd (List.getLast?_eq_none_iff.mp hl) hne
  | some last =>
    have hmem : last ∈ tl.events := List.mem_of_mem_getLast? hl
    have hlm : last.measure ≤ m := hlast last (by rw [hl]; rfl)
    obtain ⟨hb1, hl0, hlle, ht0⟩ := hpos last hmem
    have hlbud : evBudget (K + 1250000000) last := hbud last (by rw [hl]; rfl)
    unfold evBudget at hlbud
    have hstopdelta : (0:ℚ) ≤ 240000 / last.bpm * arg / 192 := by positivity
    have hstoptime := f32ToI64_nonneg hstopdelta
    have hstople : ((f32ToI64 (240000 / last.bpm * arg / 192) : ℤ) : ℚ) ≤ 1250000000 :=
      le_trans (f32ToI64_le_self hstopdelta) (stop_rate_le hb1 harg hargle)
    have hmr : (0 : ℚ) ≤ 240000000000 * (1000000 - m) := by
      have : (0:ℚ) ≤ 1000000 - m := by linarith
      positivity
    dsimp only
    by_cases hm : last.measure ≠ m
    · rw [if_pos hm]
      have hdelta : (0:ℚ) ≤ (m - last.measure) * (240000 / last.bpm) * last.length := by
        apply mul_nonneg (mul_nonneg (by linarith) (by positivity)) (le_of_lt hl0)
      have htime := f32ToI64_nonneg hdelta
      have hincle : ((f32ToI64 ((m - last.measure) * (240000 / last.bpm) * last.length) : ℤ) : ℚ) ≤
          (m - last.measure) * 240000000000 :=
        le_trans (f32ToI64_le_self hdelta) (rate_le hb1 hl0 hlle (by linarith))
      have hsum : (m - last.measure) * 240000000000 +
          240000000000 * (1000000 - m) = 240000000000 * (1000000 - last.measure) := by ring
      have hwrap1 : i64Wrap (last.time +
          f32ToI64 ((m - last.measure) * (240000 / last.bpm) * last.length)) =
          last.time + f32ToI64 ((m - last.measure) * (240000 / last.bpm) * last.length) := by
        apply i64Wrap_eq_self
        · omega
        · have hzq : (last.time +
              f32ToI64 ((m - last.measure) * (240000 / last.bpm) * last.length) : ℚ) ≤
              2 ^ 63 - 1 := by push_cast at hincle ⊢; linarith
          have hz : last.time +
              f32ToI64 ((m - last.measure) * (240000 / last.bpm) * last.length) ≤
              2 ^ 63 - 1 := by exact_mod_cast hzq
          omega
      have hwrap2 : i64Wrap ((last.time +
          f32ToI64 ((m - last.measure) * (240000 / last.bpm) * last.length)) +
          f32ToI64 (240000 / last.bpm * arg / 192)) =
          (last.time + f32ToI64 ((m - last.measure) * (240000 / last.bpm) * last.length)) +
          f32ToI64 (240000 / last.bpm * arg / 192) := by
        apply i64Wrap_eq_self
        · omega
        · have hzq : ((last.time +
              f32ToI64 ((m - last.measure) * (240000 / last.bpm) * last.length)) +
              f32ToI64 (240000 / last.bpm * arg / 192) : ℚ) ≤ 2 ^ 63 - 1 := by
            push_cast at hincle hstople ⊢
            linarith
          have hz : (last.time +
              f32ToI64 ((m - last.measure) * (240000 / last.bpm) * last.length)) +
              f32ToI64 (240000 / last.bpm * arg / 192) ≤ 2 ^ 63 - 1 := by exact_mod_cast hzq
          omega
      rw [hwrap1, hwrap2]
      refine ⟨_, rfl, ?_, ?_, ?_, ?_, by simp⟩
      · rw [show ∀ (l : List Event) (e1 e2 : Event), l ++ [e1, e2] = (l ++ [e1]) ++ [e2]
          from fun l e1 e2 => by simp]
        apply chain_append_one
        · apply chain_append_one hord
          intro x hx
          have hxl : last = x := by rw [hl] at hx; simpa using hx
          subst hxl
          refine ⟨hlm, ?_⟩
          show last.time ≤ last.time +
            f32ToI64 ((m - last.measure) * (240000 / last.bpm) * last.length)
          omega
        · intro x hx
          rw [List.getLast?_concat] at hx
          obtain rfl := Option.some_inj.mp (Option.mem_def.mp hx)
          refine ⟨le_refl m, ?_⟩
          show (last.time + f32ToI64 ((m - last.measure) * (240000 / last.bpm) * last.length)) ≤
            (last.time + f32ToI64 ((m - last.measure) * (240000 / last.bpm) * last.length)) +
              f32ToI64 (240000 / last.bpm * arg / 192)
          omega
      · intro e he
        rcases List.mem_append.mp he with he | he
        · exact hpos e he
        · rcases List.mem_cons.mp he with rfl | he
          · refine ⟨hb1, hl0, hlle, ?_⟩
            show (0:ℤ) ≤ last.time +
              f32ToI64 ((m - last.measure) * (240000 / last.bpm) * last.length)
            omega
          · rcases List.mem_cons.mp he with rfl | he
            · refine ⟨hb1, hl0, hlle, ?_⟩
              show (0:ℤ) ≤ (last.time +
                f32ToI64 ((m - last.measure) * (240000 / last.bpm) * last.length)) +
                f32ToI64 (240000 / last.bpm * arg / 192)
              omega
            · exact absurd he (List.not_mem_nil e)
      · intro e he
        rw [show ∀ (l : List Event) (e1 e2 : Event), l ++ [e1, e2] = (l ++ [e1]) ++ [e2]
          from fun l e1 e2 => by simp, List.getLast?_concat] at he
        obtain rfl := Option.some_inj.mp (Option.mem_def.mp he)
        exact le_refl m
      · intro e he
        rw [show ∀ (l : List Event) (e1 e2 : Event), l ++ [e1, e2] = (l ++ [e1]) ++ [e2]
          from fun l e1 e2 => by simp, List.getLast?_concat] at he
        obtain rfl := Option.some_inj.mp (Option.mem_def.mp he)
        unfold evBudget
        show (((last.time +
          f32ToI64 ((m - last.measure) * (240000 / last.bpm) * last.length)) +
          f32ToI64 (240000 / last.bpm * arg / 192) : ℤ) : ℚ) +
          240000000000 * (1000000 - m) + K ≤ 2 ^ 63 - 1
        push_cast at hincle hstople ⊢
        linarith
    · rw [if_neg hm]
      push_neg at hm
      have hwrap : i64Wrap (last.time + f32ToI64 (240000 / last.bpm * arg / 192)) =
          last.time + f32ToI64 (240000 / last.bpm * arg / 192) := by
        apply i64Wrap_eq_self
        · omega
        · have hzq : (last.time + f32ToI64 (240000 / last.bpm * arg / 192) : ℚ) ≤
              2 ^ 63 - 1 := by
            rw [hm] at hlbud
            push_cast at hstople ⊢
            linarith
          have hz : last.time + f32ToI64 (240000 / last.bpm * arg / 192) ≤ 2 ^ 63 - 1 := by
            exact_mod_cast hzq
          omega
      rw [hwrap]
      refine ⟨_, rfl, ?_, ?_, ?_, ?_, by simp⟩
      · apply chain_append_one hord
        intro x hx
        have hxl : last = x := by rw [hl] at hx; simpa using hx
        subst hxl
        refine ⟨hlm, ?_⟩
        show last.time ≤ last.time + f32ToI64 (240000 / last.bpm * arg / 192)
        omega
      · intro e he
        rcases List.mem_append.mp he with he | he
        · exact hpos e he
        · rcases List.mem_cons.mp he with rfl | he
          · refine ⟨hb1, hl0, hlle, ?_⟩
            show (0:ℤ) ≤ last.time + f32ToI64 (240000 / last.bpm * arg / 192)
            omega
          · exact absurd he (List.not_mem_nil e)
      · intro e he
        rw [List.getLast?_concat] at he
        obtain rfl := Option.some_inj.mp (Option.mem_def.mp he)
        exact le_refl m
      · intro e he
        rw [List.getLast?_concat] at he
        obtain rfl := Option.some_inj.mp (Option.mem_def.mp he)
        unfold evBudget
        show ((last.time + f32ToI64 (240000 / last.bpm * arg / 192) : ℤ) : ℚ) +
          240000000000 * (1000000 - m) + K ≤ 2 ^ 63 - 1
        rw [hm] at hlbud
        push_cast at hstople ⊢
        linarith

/-! ## The build loop: ordering -/

lemma buildLoopStep_inv (bpmM stopM : List (ℚ × ℚ)) (mi : List (ℕ × ℚ))
    (hb : ∀ p ∈ bpmM, 1 ≤ p.2) (hl : ∀ p ∈ mi, 0 < p.2 ∧ p.2 ≤ 1000000)
    (hs : ∀ p ∈ stopM, 0 ≤ p.2 ∧ p.2 ≤ 1000000) (hsm : ∀ p ∈ stopM, 0 < p.1)
    (lb0 ll0 : ℚ) (tl0 : Timeline) (m : ℚ)
    (hlb : 1 ≤ lb0) (hll : 0 < ll0 ∧ ll0 ≤ 1000000)
    (hm0 : 0 ≤ m) (hm1 : m ≤ 1000000)
    (hord : tl0.events.Chain' evLE) (hpos : ∀ e ∈ tl0.events, evOk e)
    (hlast : ∀ e ∈ tl0.events.getLast?, e.measure ≤ m)
    (hempty : tl0.events = [] → m ≤ 0)
    {K : ℚ} (hK : 0 ≤ K)
    (hbud : ∀ e ∈ tl0.events.getLast?, evBudget (K + 1250000000) e)
    (hbud0 : tl0.events = [] → 240000000000 * 1000000 + K ≤ 2 ^ 63 - 1) :
    ∃ lb ll tl,
      TimelineBuilder.buildLoopStep bpmM stopM mi (lb0, ll0, tl0) m = some (lb, ll, tl) ∧
      1 ≤ lb ∧ (0 < ll ∧ ll ≤ 1000000) ∧ tl.events.Chain' evLE ∧
      (∀ e ∈ tl.events, evOk e) ∧
      (∀ e ∈ tl.events.getLast?, e.measure ≤ m) ∧
      (∀ e ∈ tl.events.getLast?, evBudget K e) ∧ tl.events ≠ [] := by
  unfold TimelineBuilder.buildLoopStep
  dsimp only
  set lb := (match binarySearchBy bpmM (0, 0) (fun p => ratCmp p.1 m) with
    | .ok i => (bpmM.getD i (0, 0)).2
    | .error _ => lb0) with hlbdef
  have hlbpos : 1 ≤ lb := by
    rw [hlbdef]
    cases hsb : binarySearchBy bpmM (0, 0) (fun p => ratCmp p.1 m) with
    | ok i =>
      have hok := binSearchGo_ok _ _ _ i (le_refl bpmM.length) hsb
      exact hb _ (getD_mem hok.1 (0, 0))
    | error i => exact hlb
  set ll := (if |((⌊m⌋ : ℚ) - m)| ≤ EPS32 then
      match binarySearchBy mi (0, 0) (fun p => natCmp p.1 (u16OfInt ⌊m⌋)) with
      | .ok i => (mi.getD i (0, 0)).2
      | .error _ => ll0
    else ll0) with hlldef
  have hllpos : 0 < ll ∧ ll ≤ 1000000 := by
    rw [hlldef]
    by_cases heps : |((⌊m⌋ : ℚ) - m)| ≤ EPS32
    · rw [if_pos heps]
      cases hsl : binarySearchBy mi (0, 0) (fun p => natCmp p.1 (u16OfInt ⌊m⌋)) with
      | ok i =>
        have hok := binSearchGo_ok _ _ _ i (le_refl mi.length) hsl
        exact hl _ (getD_mem hok.1 (0, 0))
      | error i => exact hll
    · rw [if_neg heps]
      exact hll
  cases hss : binarySearchBy stopM (0, 0) (fun p => ratCmp p.1 m) with
  | error i =>
    obtain ⟨hord', hpos', hlast', hbud', hne'⟩ :=
      add_event_inv hlbpos hllpos.1 hllpos.2 hm1 hord hpos hlast hK
        (fun e he => evBudget_mono (by linarith) (hbud e he))
        (fun hnil => ⟨hm0, by have := hbud0 hnil; linarith⟩)
    exact ⟨lb, ll, tl0.add_event m lb ll, rfl, hlbpos, hllpos, hord', hpos', hlast',
      hbud', hne'⟩
  | ok i =>
    have hok := binSearchGo_ok _ _ _ i (le_refl stopM.length) hss
    have hmemstop : stopM.getD i (0, 0) ∈ stopM := getD_mem hok.1 (0, 0)
    have heq : (stopM.getD i (0, 0)).1 = m := ratCmp_eq_iff.mp hok.2
    have hmpos : 0 < m := heq ▸ hsm _ hmemstop
    have hne : tl0.events ≠ [] := by
      intro hnil
      exact absurd (hempty hnil) (by linarith)
    obtain ⟨tl1, htl1, hord1, hpos1, hlast1, hbud1, hne1⟩ :=
      add_stop_event_inv (hs _ hmemstop).1 (hs _ hmemstop).2 hm1 hne hord hpos hlast hK hbud
    obtain ⟨hord', hpos', hlast', hbud', hne'⟩ :=
      add_event_inv hlbpos hllpos.1 hllpos.2 hm1 hord1 hpos1 hlast1 hK hbud1
        (fun hnil => absurd hnil hne1)
    refine ⟨lb, ll, tl1.add_event m lb ll, ?_, hlbpos, hllpos, hord', hpos', hlast',
      hbud', hne'⟩
    dsimp only
    rw [htl1]
    rfl

lemma buildLoop_fold (bpmM stopM : List (ℚ × ℚ)) (mi : List (ℕ × ℚ))
    (hb : ∀ p ∈ bpmM, 1 ≤ p.2) (hl : ∀ p ∈ mi, 0 < p.2 ∧ p.2 ≤ 1000000)
    (hs : ∀ p ∈ stopM, 0 ≤ p.2 ∧ p.2 ≤ 1000000) (hsm : ∀ p ∈ stopM, 0 < p.1) :
    ∀ (ms : List ℚ) (lb0 ll0 : ℚ) (tl0 : Timeline),
    ms.Pairwise (· ≤ ·) → (∀ m ∈ ms, 0 ≤ m ∧ m ≤ 1000000) →
    1 ≤ lb0 → (0 < ll0 ∧ ll0 ≤ 1000000) →
    tl0.events.Chain' evLE → (∀ e ∈ tl0.events, evOk e) →
    (∀ e ∈ tl0.events.getLast?, ∀ m ∈ ms, e.measure ≤ m) →
    (tl0.events = [] → ∀ m ∈ ms.head?, m ≤ 0) →
    (tl0.events = [] → ms ≠ []) →
    (∀ e ∈ tl0.events.getLast?, evBudget (1250000000 * ms.length) e) →
    (tl0.events = [] →
      (240000000000 : ℚ) * 1000000 + 1250000000 * ms.length ≤ 2 ^ 63 - 1) →
    ∃ lb ll tl,
      ms.foldlM (TimelineBuilder.buildLoopStep bpmM stopM mi) (lb0, ll0, tl0) =
        some (lb, ll, tl) ∧
      tl.events.Chain' evLE ∧ tl.events ≠ [] := by
  intro ms
  induction ms with
  | nil =>
    intro lb0 ll0 tl0 _ _ hlb hll hord hpos _ _ hmsne _ _
    refine ⟨lb0, ll0, tl0, rfl, hord, ?_⟩
    intro hnil
    exact absurd rfl (hmsne hnil)
  | cons m ms ih =>
    intro lb0 ll0 tl0 hsorted hrange hlb hll hord hpos hlast hempty _ hbud hbud0
    rw [List.pairwise_cons] at hsorted
    obtain ⟨hm_le, hsorted'⟩ := hsorted
    have hcast : (1250000000 : ℚ) * ((m :: ms).length : ℕ) =
        1250000000 * (ms.length : ℚ) + 1250000000 := by
      push_cast [List.length_cons]
      ring
    obtain ⟨lb, ll, tl, hstep, hlbpos, hllpos, hord', hpos', hlast', hbud', hne'⟩ :=
      buildLoopStep_inv bpmM stopM mi hb hl hs hsm lb0 ll0 tl0 m hlb hll
        (hrange m (List.mem_cons_self m ms)).1 (hrange m (List.mem_cons_self m ms)).2
        hord hpos
        (fun e he => hlast e he m (List.mem_cons_self m ms))
        (fun hnil => hempty hnil m rfl)
        (by positivity)
        (fun e he => evBudget_mono (le_of_eq hcast.symm) (hbud e he))
        (fun hnil => by
          have h0 := hbud0 hnil
          rw [hcast] at h0
          linarith)
    obtain ⟨lb2, ll2, tl2, hfold, hordf, hnef⟩ :=
      ih lb ll tl hsorted' (fun x hx => hrange x (List.mem_cons_of_mem m hx))
        hlbpos hllpos hord' hpos'
        (fun e he m' hm' => le_trans (hlast' e he) (hm_le m' hm'))
        (fun hnil => absurd hnil hne')
        (fun hnil => absurd hnil hne')
        hbud'
        (fun hnil => absurd hnil hne')
    refine ⟨lb2, ll2, tl2, ?_, hordf, hnef⟩
    show (TimelineBuilder.buildLoopStep bpmM stopM mi (lb0, ll0, tl0) m) >>=
      (fun s => ms.foldlM (TimelineBuilder.buildLoopStep bpmM stopM mi) s) = _
    rw [hstep]
    exact hfold

/-! ## The position cache and build assembly -/

lemma cachePosGo_proj : ∀ (l : List Event) (prev : Event),
    (cachePosGo prev l).map (fun e => (e.time, e.measure)) =
      l.map (fun e => (e.time, e.measure)) := by
  intro l
  induction l with
  | nil => intro prev; rfl
  | cons e rest ih =>
    intro prev
    unfold cachePosGo
    simp only [List.map_cons, ih]

lemma chain_of_proj_eq {l1 l2 : List Event}
    (h : l1.map (fun e => (e.time, e.measure)) = l2.map (fun e => (e.time, e.measure)))
    (hc : l2.Chain' evLE) : l1.Chain' evLE := by
  have h1 : List.Chain' (fun p q : ℤ × ℚ => p.2 ≤ q.2 ∧ p.1 ≤ q.1)
      (l2.map fun e => (e.time, e.measure)) := by
    rw [List.chain'_map]
    exact hc
  rw [← h, List.chain'_map] at h1
  exact h1

lemma cache_event_pos_proj (tl : Timeline) :
    tl.cache_event_pos.events.map (fun e => (e.time, e.measure)) =
      tl.events.map (fun e => (e.time, e.measure)) := by
  unfold Timeline.cache_event_pos
  cases htl : tl.events with
  | nil => rw [htl]
  | cons e rest =>
    simp only [List.map_cons, cachePosGo_proj]

lemma rleGo_snd_mem : ∀ (xs : List ℚ) (last : ℚ) (i : ℕ) (p : ℕ × ℚ),
    p ∈ rleGo last i xs → p.2 ∈ xs := by
  intro xs
  induction xs with
  | nil => intro last i p h; exact absurd h (List.not_mem_nil p)
  | cons x xs ih =>
    intro last i p h
    unfold rleGo at h
    by_cases hne : last ≠ x
    · rw [if_pos hne] at h
      rcases List.mem_cons.mp h with rfl | h
      · exact List.mem_cons_self _ _
      · exact List.mem_cons_of_mem _ (ih _ _ _ h)
    · rw [if_neg hne] at h
      exact List.mem_cons_of_mem _ (ih _ _ _ h)

lemma headD_mem {l : List α} (h : ¬ l.isEmpty = true) (d : α) : l.headD d ∈ l := by
  cases l with
  | nil => simp at h
  | cons a t => exact List.mem_cons_self a t

lemma head_le_of_pairwise {l : List ℚ} (hp : l.Pairwise (· ≤ ·)) {h0 : ℚ}
    (hh : l.head? = some h0) {x : ℚ} (hx : x ∈ l) : h0 ≤ x := by
  cases l with
  | nil => simp at hh
  | cons h t =>
    obtain rfl : h = h0 := by simpa using hh
    rcases List.mem_cons.mp hx with rfl | hx
    · exact le_refl x
    · exact (List.pairwise_cons.mp hp).1 x hx

/-- C3 (amended): under the claim's preconditions strengthened by what the
counterexamples and the `i64` time arithmetic force — tempos of at least
1 BPM, stops of at most 10⁶ units at strictly positive measures ≤ 10⁶ (a stop
at measure 0 panics), tempo-change measures in [0, 10⁶], a non-empty table of
positive measure lengths ≤ 10⁶, and at most 2·10⁶ commands plus table entries
(so that no wrapping `i64` time addition can overflow) — `build` succeeds and
the event list is non-empty and sorted non-decreasing both by measure and by
time.  The claim's final clause (equal times imply equal measures) is
dropped: `C3_counterexample` refutes it; the magnitude bounds are needed
because the source accumulates time by a wrapping `i64` addition. -/
theorem C3_amended (b : TimelineBuilder)
    (hbase : 1 ≤ b.base_bpm)
    (hbpm : ∀ m v, TimelineEvent.BPM m v ∈ b.events → 1 ≤ v ∧ 0 ≤ m ∧ m ≤ 1000000)
    (hstop : ∀ m dur, TimelineEvent.STOP m dur ∈ b.events →
      (0 ≤ dur ∧ dur ≤ 1000000) ∧ 0 < m ∧ m ≤ 1000000)
    (hlens_ne : b.measure_lens ≠ [])
    (hlens_pos : ∀ x ∈ b.measure_lens, 0 < x ∧ x ≤ 1000000)
    (hcount : b.events.length + b.measure_lens.length ≤ 2000000) :
    ∃ tl, b.build = some tl ∧ tl.events ≠ [] ∧ tl.events.Chain' evLE := by
  obtain ⟨l0, rest, hlens⟩ : ∃ l0 rest, b.measure_lens = l0 :: rest := by
    cases hc : b.measure_lens with
    | nil => exact absurd hc hlens_ne
    | cons a t => exact ⟨a, t, rfl⟩
  have hl0pos : 0 < l0 ∧ l0 ≤ 1000000 :=
    hlens_pos l0 (by rw [hlens]; exact List.mem_cons_self _ _)
  -- names for the build intermediates
  set bpmM0 : List (ℚ × ℚ) := b.events.filterMap (fun e => match e with
    | .BPM m v => some (m, v)
    | .STOP _ _ => none) with hbpmM0
  set stopM0 : List (ℚ × ℚ) := b.events.filterMap (fun e => match e with
    | .STOP m d => some (m, d)
    | .BPM _ _ => none) with hstopM0
  set eventMeasures : List ℚ := b.events.map (fun e => match e with
    | .BPM m _ => m
    | .STOP m _ => m) with heventMeasures
  set mi : List (ℕ × ℚ) := (0, l0) :: rleGo l0 1 rest with hmi
  set bpmM : List (ℚ × ℚ) := insSort (fun p q : ℚ × ℚ => p.1 ≤ q.1) bpmM0 with hbpmM
  set stopM : List (ℚ × ℚ) := insSort (fun p q : ℚ × ℚ => p.1 ≤ q.1) stopM0 with hstopM
  set sorted : List ℚ :=
    insSort (· ≤ ·) (eventMeasures ++ mi.map (fun p => (p.1 : ℚ))) with hsorted
  set ms : List ℚ := sorted.destutter (· ≠ ·) with hms
  -- bounds on the searched values
  have hbM : ∀ p ∈ bpmM, 1 ≤ p.2 := by
    intro p hp
    rw [hbpmM] at hp
    rw [mem_insSort] at hp
    rw [hbpmM0] at hp
    rw [List.mem_filterMap] at hp
    obtain ⟨e, he, heq⟩ := hp
    cases e with
    | BPM m v =>
      rw [Option.some_inj] at heq
      subst heq
      exact (hbpm m v he).1
    | STOP m d => exact absurd heq (by simp)
  have hsM0 : ∀ p ∈ stopM, (0 ≤ p.2 ∧ p.2 ≤ 1000000) ∧ 0 < p.1 := by
    intro p hp
    rw [hstopM] at hp
    rw [mem_insSort] at hp
    rw [hstopM0] at hp
    rw [List.mem_filterMap] at hp
    obtain ⟨e, he, heq⟩ := hp
    cases e with
    | STOP m d =>
      rw [Option.some_inj] at heq
      subst heq
      exact ⟨(hstop m d he).1, (hstop m d he).2.1⟩
    | BPM m v => exact absurd heq (by simp)
  have hlM : ∀ p ∈ mi, 0 < p.2 ∧ p.2 ≤ 1000000 := by
    intro p hp
    rw [hmi] at hp
    rcases List.mem_cons.mp hp with rfl | hp
    · exact hl0pos
    · exact hlens_pos _ (by
        rw [hlens]
        exact List.mem_cons_of_mem _ (rleGo_snd_mem rest l0 1 p hp))
  -- the sorted measure list
  have hpw : sorted.Pairwise (· ≤ ·) := by
    rw [hsorted]
    exact pairwise_insSort (fun a b => le_total a b) (fun a b c => le_trans) _
  have hmspw : ms.Pairwise (· ≤ ·) := by
    rw [hms]
    exact List.Pairwise.sublist (List.destutter_sublist _ _) hpw
  have hrange : ∀ m ∈ ms, 0 ≤ m ∧ m ≤ 1000000 := by
    intro m hm
    have hmem : m ∈ sorted := by
      rw [hms] at hm
      exact (List.destutter_sublist _ _).subset hm
    rw [hsorted, mem_insSort] at hmem
    rcases List.mem_append.mp hmem with hmem | hmem
    · rw [heventMeasures, List.mem_map] at hmem
      obtain ⟨e, he, heq⟩ := hmem
      cases e with
      | BPM m' v =>
        obtain rfl : m' = m := heq
        exact (hbpm m' v he).2
      | STOP m' d =>
        obtain rfl : m' = m := heq
        exact ⟨le_of_lt (hstop m' d he).2.1, (hstop m' d he).2.2⟩
    · rw [List.mem_map] at hmem
      obtain ⟨p, hp, heq⟩ := hmem
      subst heq
      constructor
      · positivity
      · rw [hmi] at hp
        rcases List.mem_cons.mp hp with rfl | hp
        · norm_num
        · have hlt : p.1 < 65536 := rleGo_fst_lt rest l0 1 p hp
          have : (p.1 : ℚ) ≤ 65536 := by exact_mod_cast le_of_lt hlt
          linarith
  have hmslen : ms.length ≤ 2000000 := by
    have h1 : ms.length ≤ sorted.length := by
      rw [hms]
      exact (List.destutter_sublist _ _).length_le
    have h2 : sorted.length = b.events.length + mi.length := by
      rw [hsorted]
      rw [insSort_length]
      rw [List.length_append]
      rw [heventMeasures]
      simp only [List.length_map]
    have h3 : mi.length ≤ b.measure_lens.length := by
      rw [hmi, hlens]
      simp only [List.length_cons]
      exact Nat.succ_le_succ (rleGo_length_le rest l0 1)
    omega
  have h0mem : (0 : ℚ) ∈ sorted := by
    rw [hsorted, mem_insSort]
    refine List.mem_append_right _ ?_
    rw [hmi]
    simp
  obtain ⟨h0, t0, hsortedcons⟩ : ∃ h0 t0, sorted = h0 :: t0 := by
    cases hc : sorted with
    | nil => rw [hc] at h0mem; exact absurd h0mem (List.not_mem_nil _)
    | cons a t => exact ⟨a, t, rfl⟩
  have hmshead : ms.head? = some h0 := by
    rw [hms, hsortedcons]
    show (List.destutter' _ h0 t0).head? = some h0
    exact destutter'_head h0 t0
  have hh0le : h0 ≤ 0 := by
    refine head_le_of_pairwise hpw ?_ h0mem
    rw [hsortedcons]
    rfl
  have hmsne : ms ≠ [] := by
    intro hnil
    rw [hnil] at hmshead
    exact absurd hmshead (by simp)
  -- initial memoized values
  set lb0 : ℚ := (if bpmM.isEmpty ∨ 1 / 1000000 < (bpmM.headD (0, 0)).1 - 0 then b.base_bpm
    else (bpmM.headD (0, 0)).2) with hlb0
  have hlb0pos : 1 ≤ lb0 := by
    rw [hlb0]
    by_cases hcond : bpmM.isEmpty ∨ 1 / 1000000 < (bpmM.headD (0, 0)).1 - 0
    · rw [if_pos hcond]; exact hbase
    · rw [if_neg hcond]
      push_neg at hcond
      obtain ⟨hne, _⟩ := hcond
      exact hbM _ (headD_mem hne (0, 0))
  obtain ⟨lb2, ll2, tl2, hfold, hordf, hnef⟩ :=
    buildLoop_fold bpmM stopM mi hbM hlM (fun p hp => (hsM0 p hp).1)
      (fun p hp => (hsM0 p hp).2)
      ms lb0 l0 ⟨[]⟩ hmspw hrange hlb0pos hl0pos List.chain'_nil
      (fun e he => absurd he (List.not_mem_nil e))
      (fun e he => by simp at he)
      (fun _ m hm => by
        rw [hmshead] at hm
        obtain rfl : h0 = m := by simpa using hm
        exact hh0le)
      (fun _ => hmsne)
      (fun e he => by simp at he)
      (fun _ => by
        have hc : (ms.length : ℚ) ≤ 2000000 := by exact_mod_cast hmslen
        have h1 : (1250000000 : ℚ) * ms.length ≤ 1250000000 * 2000000 :=
          mul_le_mul_of_nonneg_left hc (by norm_num)
        have h2 : (240000000000 : ℚ) * 1000000 + 1250000000 * 2000000 ≤ 2 ^ 63 - 1 := by
          norm_num
        linarith)
  have hb' : b = ⟨b.base_bpm, b.bpms, b.stops, l0 :: rest, b.events⟩ := by
    cases b with
    | mk base bpms stops lens ev =>
      simp only at hlens
      rw [hlens]
  refine ⟨tl2.cache_event_pos, ?_, ?_, ?_⟩
  · rw [hb']
    show (ms.foldlM (TimelineBuilder.buildLoopStep bpmM stopM mi) (lb0, l0, (⟨[]⟩ : Timeline)))
        >>= (fun s => pure s.2.2.cache_event_pos) = some tl2.cache_event_pos
    rw [hfold]
    rfl
  · intro hnil
    have h1 := cache_event_pos_proj tl2
    rw [hnil] at h1
    exact hnef (List.map_eq_nil_iff.mp h1.symm)
  · exact chain_of_proj_eq (cache_event_pos_proj tl2) hordf

/-- Witness for C3 (amended) at the stop-at-measure-2 builder of C1. -/
theorem C3_amended_witness :
    ∃ tl, c1Builder.build = some tl ∧ tl.events ≠ [] ∧ tl.events.Chain' evLE :=
  C3_amended c1Builder (show (1 : ℚ) ≤ 120 by norm_num)
    (fun m v h => by
      have h' : TimelineEvent.BPM m v ∈ [TimelineEvent.STOP 2 192] := h
      simp at h')
    (fun m dur h => by
      have h' : TimelineEvent.STOP m dur ∈ [TimelineEvent.STOP 2 192] := h
      simp at h'
      obtain ⟨rfl, rfl⟩ := h'
      norm_num)
    (by
      intro h
      have h' : List.replicate 1000 (1 : ℚ) = [] := h
      simpa using congrArg List.length h')
    (fun x hx => by
      have := List.eq_of_mem_replicate (show x ∈ List.replicate 1000 (1 : ℚ) from hx)
      rw [this]
      norm_num)
    (by
      have h1 : c1Builder.events.length = 1 := rfl
      have h2 : c1Builder.measure_lens.length = 1000 := by
        show (List.replicate 1000 (1 : ℚ)).length = 1000
        rw [List.length_replicate]
      rw [h1, h2]
      norm_num)

lemma scanFirst_inv {α : Type} (f : List Char → Option α) :
    ∀ (cs : List Char) (r : α), scanFirst f cs = some r → ∃ s, f s = some r := by
  intro cs
  induction cs with
  | nil =>
    intro r h
    exact absurd h (by simp [scanFirst])
  | cons c rest ih =>
    intro r h
    unfold scanFirst at h
    cases hf : f (c :: rest) with
    | some x =>
      simp only [hf] at h
      exact ⟨c :: rest, hf.trans h⟩
    | none =>
      simp only [hf] at h
      exact ih r h

lemma charToDigit_getD_lt (radix : ℕ) (hr : 0 < radix) (c : Char) :
    (charToDigit radix c).getD 0 < radix := by
  unfold charToDigit
  dsimp only
  by_cases h1 : 48 ≤ c.toNat ∧ c.toNat ≤ 57
  · rw [if_pos h1]
    dsimp only
    by_cases h2 : c.toNat - 48 < radix
    · rw [if_pos h2]; simpa using h2
    · rw [if_neg h2]; simpa using hr
  · rw [if_neg h1]
    by_cases h3 : 97 ≤ c.toNat ∧ c.toNat ≤ 122
    · rw [if_pos h3]
      dsimp only
      by_cases h2 : c.toNat - 87 < radix
      · rw [if_pos h2]; simpa using h2
      · rw [if_neg h2]; simpa using hr
    · rw [if_neg h3]
      by_cases h4 : 65 ≤ c.toNat ∧ c.toNat ≤ 90
      · rw [if_pos h4]
        dsimp only
        by_cases h2 : c.toNat - 55 < radix
        · rw [if_pos h2]; simpa using h2
        · rw [if_neg h2]; simpa using hr
      · rw [if_neg h4]; simpa using hr

lemma digitsVal3_lt (m1 m2 m3 : Char) : digitsVal 10 [m1, m2, m3] < 1000 := by
  have h1 := charToDigit_getD_lt 10 (by norm_num) m1
  have h2 := charToDigit_getD_lt 10 (by norm_num) m2
  have h3 := charToDigit_getD_lt 10 (by norm_num) m3
  unfold digitsVal
  simp only [List.foldl_cons, List.foldl_nil]
  omega

lemma objTryAt_measure_lt {s : List Char} {m ch : ℕ} {d : List Char}
    (h : objTryAt s = some (m, ch, d)) : m < 1000 := by
  unfold objTryAt at h
  split at h
  · split at h
    · rw [Option.some_inj, Prod.mk.injEq] at h
      rw [← h.1]
      exact digitsVal3_lt _ _ _
    · exact absurd h (by simp)
  · exact absurd h (by simp)

lemma placementGo_isSome (m total ch : ℕ) :
    ∀ (data : List Char) (iter : ℕ), pairsShapeOk false data = true →
      (placementGo m total ch iter data).isSome = true
  | [], _, _ => rfl
  | c1 :: rest, iter, h => by
    unfold placementGo
    unfold pairsShapeOk at h
    by_cases h1 : utf8Len c1 = 1
    · rw [if_pos h1] at h ⊢
      cases rest with
      | nil => simp at h
      | cons c2 rest2 =>
        dsimp only at h ⊢
        by_cases h2 : utf8Len c2 = 1
        · rw [if_pos h2] at h ⊢
          simp only [Bool.and_eq_true] at h
          obtain ⟨t, ht⟩ := Option.isSome_iff_exists.mp
            (placementGo_isSome m total ch rest2 (iter + 2) h.2)
          simp only [Option.bind_eq_bind, Option.pure_def]
          rw [ht]
          simp only [Option.some_bind]
          split <;> rfl
        · rw [if_neg h2] at h
          simp at h
    · rw [if_neg h1] at h ⊢
      by_cases h2 : utf8Len c1 = 2
      · rw [if_pos h2] at h ⊢
        simp only [Bool.and_eq_true] at h
        obtain ⟨t, ht⟩ := Option.isSome_iff_exists.mp
          (placementGo_isSome m total ch rest (iter + 2) h.2)
        simp only [Option.bind_eq_bind, Option.pure_def]
        rw [ht]
        simp only [Option.some_bind]
        split <;> rfl
      · rw [if_neg h2] at h
        simp at h

lemma bpmChannelGo_isSome (m total ch : ℕ) (tb : TimelineBuilder) :
    ∀ (data : List Char) (iter : ℕ), pairsShapeOk (ch == 3) data = true →
      (bpmChannelGo m total ch tb iter data).isSome = true
  | [], _, _ => rfl
  | c1 :: rest, iter, h => by
    unfold bpmChannelGo
    unfold pairsShapeOk at h
    by_cases h1 : utf8Len c1 = 1
    · rw [if_pos h1] at h ⊢
      cases rest with
      | nil => simp at h
      | cons c2 rest2 =>
        dsimp only at h ⊢
        by_cases h2 : utf8Len c2 = 1
        · rw [if_pos h2] at h ⊢
          simp only [Bool.and_eq_true] at h
          obtain ⟨hhead, hrest⟩ := h
          obtain ⟨t, ht⟩ := Option.isSome_iff_exists.mp
            (bpmChannelGo_isSome m total ch tb rest2 (iter + 2) hrest)
          simp only [Option.bind_eq_bind, Option.pure_def]
          by_cases h3 : ch = 3
          · rw [if_pos h3]
            have hb : (ch == 3) = true := by simp [h3]
            rw [hb] at hhead
            simp only [Bool.not_true, Bool.false_or] at hhead
            obtain ⟨n, hn⟩ := Option.isSome_iff_exists.mp hhead
            rw [hn]
            simp only [Option.map_some', Option.some_bind]
            rw [ht]
            simp only [Option.map_some', Option.some_bind]
            split <;> rfl
          · rw [if_neg h3]
            simp only [Option.some_bind]
            rw [ht]
            simp only [Option.some_bind]
            split <;> rfl
        · rw [if_neg h2] at h
          simp at h
    · rw [if_neg h1] at h ⊢
      by_cases h2 : utf8Len c1 = 2
      · rw [if_pos h2] at h ⊢
        simp only [Bool.and_eq_true] at h
        obtain ⟨hhead, hrest⟩ := h
        obtain ⟨t, ht⟩ := Option.isSome_iff_exists.mp
          (bpmChannelGo_isSome m total ch tb rest (iter + 2) hrest)
        simp only [Option.bind_eq_bind, Option.pure_def]
        by_cases h3 : ch = 3
        · rw [if_pos h3]
          have hb : (ch == 3) = true := by simp [h3]
          rw [hb] at hhead
          simp only [Bool.not_true, Bool.false_or] at hhead
          obtain ⟨n, hn⟩ := Option.isSome_iff_exists.mp hhead
          rw [hn]
          simp only [Option.map_some', Option.some_bind]
          rw [ht]
          simp only [Option.map_some', Option.some_bind]
          split <;> rfl
        · rw [if_neg h3]
          simp only [Option.some_bind]
          rw [ht]
          simp only [Option.some_bind]
          split <;> rfl
      · rw [if_neg h2] at h
        simp at h

lemma stopChannelGo_isSome (m total : ℕ) (tb : TimelineBuilder) :
    ∀ (data : List Char) (iter : ℕ), pairsShapeOk false data = true →
      (stopChannelGo m total tb iter data).isSome = true
  | [], _, _ => rfl
  | c1 :: rest, iter, h => by
    unfold stopChannelGo
    unfold pairsShapeOk at h
    by_cases h1 : utf8Len c1 = 1
    · rw [if_pos h1] at h ⊢
      cases rest with
      | nil => simp at h
      | cons c2 rest2 =>
        dsimp only at h ⊢
        by_cases h2 : utf8Len c2 = 1
        · rw [if_pos h2] at h ⊢
          simp only [Bool.and_eq_true] at h
          obtain ⟨t, ht⟩ := Option.isSome_iff_exists.mp
            (stopChannelGo_isSome m total tb rest2 (iter + 2) h.2)
          simp only [Option.bind_eq_bind, Option.pure_def]
          rw [ht]
          simp only [Option.some_bind]
          split <;> rfl
        · rw [if_neg h2] at h
          simp at h
    · rw [if_neg h1] at h ⊢
      by_cases h2 : utf8Len c1 = 2
      · rw [if_pos h2] at h ⊢
        simp only [Bool.and_eq_true] at h
        obtain ⟨t, ht⟩ := Option.isSome_iff_exists.mp
          (stopChannelGo_isSome m total tb rest (iter + 2) h.2)
        simp only [Option.bind_eq_bind, Option.pure_def]
        rw [ht]
        simp only [Option.some_bind]
        split <;> rfl
      · rw [if_neg h2] at h
        simp at h

lemma bpmChannelGo_only_bpm (m total ch : ℕ) (tb : TimelineBuilder) :
    ∀ (data : List Char) (iter : ℕ) (evs : List TimelineEvent),
      bpmChannelGo m total ch tb iter data = some evs →
      ∀ e ∈ evs, ∃ mm vv, e = TimelineEvent.BPM mm vv
  | [], _, evs, hgo => by
    have hgo' : some ([] : List TimelineEvent) = some evs := hgo
    obtain rfl := Option.some_inj.mp hgo'
    intro e he
    exact absurd he (List.not_mem_nil e)
  | c1 :: rest, iter, evs, hgo => by
    unfold bpmChannelGo at hgo
    by_cases h1 : utf8Len c1 = 1
    · rw [if_pos h1] at hgo
      cases rest with
      | nil => exact absurd hgo (by simp)
      | cons c2 rest2 =>
        dsimp only at hgo
        by_cases h2 : utf8Len c2 = 1
        · rw [if_pos h2] at hgo
          simp only [Option.bind_eq_bind, Option.pure_def] at hgo
          by_cases h3 : ch = 3
          · rw [if_pos h3] at hgo
            cases hfr : fromStrRadix 16 U16_MAX [c1, c2] with
            | none =>
              rw [hfr] at hgo
              exact absurd hgo (by simp)
            | some n =>
              rw [hfr] at hgo
              simp only [Option.map_some', Option.some_bind] at hgo
              cases ht : bpmChannelGo m total ch tb (iter + 2) rest2 with
              | none =>
                rw [ht] at hgo
                exact absurd hgo (by simp)
              | some t =>
                rw [ht] at hgo
                simp only [Option.some_bind] at hgo
                intro e he
                by_cases hc : (1 : ℚ) / 1000000 < |(n : ℚ) - 0|
                · rw [if_pos hc] at hgo
                  obtain rfl := Option.some_inj.mp hgo
                  rcases List.mem_cons.mp he with rfl | he'
                  · exact ⟨_, _, rfl⟩
                  · exact bpmChannelGo_only_bpm m total ch tb rest2 (iter + 2) t ht e he'
                · rw [if_neg hc] at hgo
                  obtain rfl := Option.some_inj.mp hgo
                  exact bpmChannelGo_only_bpm m total ch tb rest2 (iter + 2) t ht e he
          · rw [if_neg h3] at hgo
            simp only [Option.some_bind] at hgo
            cases ht : bpmChannelGo m total ch tb (iter + 2) rest2 with
            | none =>
              rw [ht] at hgo
              exact absurd hgo (by simp)
            | some t =>
              rw [ht] at hgo
              simp only [Option.some_bind] at hgo
              intro e he
              by_cases hc :
                  (1 : ℚ) / 1000000 < |tb.find_bpm (Alphanumeric.from_str [c1, c2]) - 0|
              · rw [if_pos hc] at hgo
                obtain rfl := Option.some_inj.mp hgo
                rcases List.mem_cons.mp he with rfl | he'
                · exact ⟨_, _, rfl⟩
                · exact bpmChannelGo_only_bpm m total ch tb rest2 (iter + 2) t ht e he'
              · rw [if_neg hc] at hgo
                obtain rfl := Option.some_inj.mp hgo
                exact bpmChannelGo_only_bpm m total ch tb rest2 (iter + 2) t ht e he
        · rw [if_neg h2] at hgo
          exact absurd hgo (by simp)
    · rw [if_neg h1] at hgo
      by_cases h2 : utf8Len c1 = 2
      · rw [if_pos h2] at hgo
        simp only [Option.bind_eq_bind, Option.pure_def] at hgo
        by_cases h3 : ch = 3
        · rw [if_pos h3] at hgo
          cases hfr : fromStrRadix 16 U16_MAX [c1] with
          | none =>
            rw [hfr] at hgo
            exact absurd hgo (by simp)
          | some n =>
            rw [hfr] at hgo
            simp only [Option.map_some', Option.some_bind] at hgo
            cases ht : bpmChannelGo m total ch tb (iter + 2) rest with
            | none =>
              rw [ht] at hgo
              exact absurd hgo (by simp)
            | some t =>
              rw [ht] at hgo
              simp only [Option.some_bind] at hgo
              intro e he
              by_cases hc : (1 : ℚ) / 1000000 < |(n : ℚ) - 0|
              · rw [if_pos hc] at hgo
                obtain rfl := Option.some_inj.mp hgo
                rcases List.mem_cons.mp he with rfl | he'
                · exact ⟨_, _, rfl⟩
                · exact bpmChannelGo_only_bpm m total ch tb rest (iter + 2) t ht e he'
              · rw [if_neg hc] at hgo
                obtain rfl := Option.some_inj.mp hgo
                exact bpmChannelGo_only_bpm m total ch tb rest (iter + 2) t ht e he
        · rw [if_neg h3] at hgo
          simp only [Option.some_bind] at hgo
          cases ht : bpmChannelGo m total ch tb (iter + 2) rest with
          | none =>
            rw [ht] at hgo
            exact absurd hgo (by simp)
          | some t =>
            rw [ht] at hgo
            simp only [Option.some_bind] at hgo
            intro e he
            by_cases hc :
                (1 : ℚ) / 1000000 < |tb.find_bpm (Alphanumeric.from_str [c1]) - 0|
            · rw [if_pos hc] at hgo
              obtain rfl := Option.some_inj.mp hgo
              rcases List.mem_cons.mp he with rfl | he'
              · exact ⟨_, _, rfl⟩
              · exact bpmChannelGo_only_bpm m total ch tb rest (iter + 2) t ht e he'
            · rw [if_neg hc] at hgo
              obtain rfl := Option.some_inj.mp hgo
              exact bpmChannelGo_only_bpm m total ch tb rest (iter + 2) t ht e he
      · rw [if_neg h2] at hgo
        exact absurd hgo (by simp)

lemma stopChannelGo_stops_nonneg (m total : ℕ) (tb : TimelineBuilder) :
    ∀ (data : List Char) (iter : ℕ) (evs : List TimelineEvent),
      stopChannelGo m total tb iter data = some evs →
      ∀ mm dd, TimelineEvent.STOP mm dd ∈ evs → 0 ≤ mm
  | [], _, evs, hgo => by
    have hgo' : some ([] : List TimelineEvent) = some evs := hgo
    obtain rfl := Option.some_inj.mp hgo'
    intro mm dd he
    exact absurd he (List.not_mem_nil _)
  | c1 :: rest, iter, evs, hgo => by
    unfold stopChannelGo at hgo
    by_cases h1 : utf8Len c1 = 1
    · rw [if_pos h1] at hgo
      cases rest with
      | nil => exact absurd hgo (by simp)
      | cons c2 rest2 =>
        dsimp only at hgo
        by_cases h2 : utf8Len c2 = 1
        · rw [if_pos h2] at hgo
          simp only [Option.bind_eq_bind, Option.pure_def, Option.bind_eq_some,
            Option.some_inj] at hgo
          obtain ⟨t, ht, hif⟩ := hgo
          intro mm dd he
          by_cases hc : tb.find_stop (Alphanumeric.from_str [c1, c2]) ≠ 0
          · rw [if_pos hc] at hif
            obtain rfl := Option.some_inj.mp hif
            rcases List.mem_cons.mp he with hhd | he'
            · obtain ⟨rfl, rfl⟩ := TimelineEvent.STOP.inj hhd
              positivity
            · exact stopChannelGo_stops_nonneg m total tb rest2 (iter + 2) t ht mm dd he'
          · rw [if_neg hc] at hif
            obtain rfl := Option.some_inj.mp hif
            exact stopChannelGo_stops_nonneg m total tb rest2 (iter + 2) t ht mm dd he
        · rw [if_neg h2] at hgo
          exact absurd hgo (by simp)
    · rw [if_neg h1] at hgo
      by_cases h2 : utf8Len c1 = 2
      · rw [if_pos h2] at hgo
        simp only [Option.bind_eq_bind, Option.pure_def, Option.bind_eq_some,
          Option.some_inj] at hgo
        obtain ⟨t, ht, hif⟩ := hgo
        intro mm dd he
        by_cases hc : tb.find_stop (Alphanumeric.from_str [c1]) ≠ 0
        · rw [if_pos hc] at hif
          obtain rfl := Option.some_inj.mp hif
          rcases List.mem_cons.mp he with hhd | he'
          · obtain ⟨rfl, rfl⟩ := TimelineEvent.STOP.inj hhd
            positivity
          · exact stopChannelGo_stops_nonneg m total tb rest (iter + 2) t ht mm dd he'
        · rw [if_neg hc] at hif
          obtain rfl := Option.some_inj.mp hif
          exact stopChannelGo_stops_nonneg m total tb rest (iter + 2) t ht mm dd he
      · rw [if_neg h2] at hgo
        exact absurd hgo (by simp)

lemma stopStage_inv (line : List Char) (bb : BmsBuilder)
    (hok : stopLineOk line = true) (hinv : builderInv bb) :
    ∃ bb', stopStage line bb = some bb' ∧ builderInv bb' := by
  unfold stopStage
  unfold stopLineOk at hok
  cases hst : stopMatch line with
  | none =>
    simp only [hst]
    exact ⟨bb, rfl, hinv⟩
  | some p =>
    obtain ⟨k, dd⟩ := p
    simp only [hst] at hok ⊢
    obtain ⟨v, hv⟩ := Option.isSome_iff_exists.mp hok
    simp only [hv]
    exact ⟨_, rfl, hinv⟩

lemma objApply_inv (m ch : ℕ) (data line : List Char) (bb : BmsBuilder)
    (hok : objLineOk ch data line = true)
    (hmlt : m < 1000) (hinv : builderInv bb) :
    (∃ bb', objApply m ch data bb = some (true, bb') ∧ builderInv bb') ∨
    (objApply m ch data bb = some (false, bb) ∧ stopLineOk line = true) := by
  unfold objApply
  unfold objLineOk at hok
  by_cases hp : ch ∈ placementChannels
  · rw [if_pos hp] at hok ⊢
    left
    obtain ⟨objs, hobjs⟩ :=
      Option.isSome_iff_exists.mp (placementGo_isSome m (utf8Length data) ch data 0 hok)
    refine ⟨{ bb with objects := bb.objects ++ objs }, ?_, hinv⟩
    simp only [Option.bind_eq_bind, Option.pure_def]
    rw [hobjs]
    simp only [Option.some_bind]
  · rw [if_neg hp] at hok ⊢
    by_cases h38 : ch = 3 ∨ ch = 8
    · rw [if_pos h38] at hok ⊢
      left
      obtain ⟨evs, hevs⟩ := Option.isSome_iff_exists.mp
        (bpmChannelGo_isSome m (utf8Length data) ch bb.timeline_builder data 0 hok)
      refine ⟨{ bb with timeline_builder :=
        { bb.timeline_builder with
          events := bb.timeline_builder.events ++ evs } }, ?_, ?_⟩
      · simp only [Option.bind_eq_bind, Option.pure_def]
        rw [hevs]
        simp only [Option.some_bind]
      · refine ⟨hinv.1, ?_⟩
        intro mm dd hmem
        rcases List.mem_append.mp hmem with hmem | hmem
        · exact hinv.2 mm dd hmem
        · obtain ⟨m', v', habs⟩ :=
            bpmChannelGo_only_bpm m (utf8Length data) ch bb.timeline_builder data 0 evs hevs _ hmem
          exact absurd habs (by simp)
    · rw [if_neg h38] at hok ⊢
      by_cases h9 : ch = 9
      · rw [if_pos h9] at hok ⊢
        left
        obtain ⟨evs, hevs⟩ := Option.isSome_iff_exists.mp
          (stopChannelGo_isSome m (utf8Length data) bb.timeline_builder data 0 hok)
        refine ⟨{ bb with timeline_builder :=
          { bb.timeline_builder with
            events := bb.timeline_builder.events ++ evs } }, ?_, ?_⟩
        · simp only [Option.bind_eq_bind, Option.pure_def]
          rw [hevs]
          simp only [Option.some_bind]
        · refine ⟨hinv.1, ?_⟩
          intro mm dd hmem
          rcases List.mem_append.mp hmem with hmem | hmem
          · exact hinv.2 mm dd hmem
          · exact stopChannelGo_stops_nonneg m (utf8Length data) bb.timeline_builder data 0 evs
              hevs mm dd hmem
      · rw [if_neg h9] at hok ⊢
        by_cases h2 : ch = 2
        · rw [if_pos h2] at hok ⊢
          left
          obtain ⟨v, hv⟩ := Option.isSome_iff_exists.mp hok
          have hw : bb.timeline_builder.with_measure_len m v =
              some { bb.timeline_builder with
                     measure_lens := bb.timeline_builder.measure_lens.set m v } := by
            unfold TimelineBuilder.with_measure_len
            rw [if_pos (by rw [hinv.1]; exact hmlt)]
          refine ⟨{ bb with timeline_builder :=
            { bb.timeline_builder with
              measure_lens := bb.timeline_builder.measure_lens.set m v } }, ?_, ?_⟩
          · simp only [Option.bind_eq_bind, Option.pure_def]
            rw [hv]
            simp only [Option.some_bind]
            rw [hw]
            simp only [Option.some_bind]
          · refine ⟨?_, ?_⟩
            · show (bb.timeline_builder.measure_lens.set m v).length = 1000
              rw [List.length_set]
              exact hinv.1
            · intro mm dd hmem
              exact hinv.2 mm dd hmem
        · rw [if_neg h2] at hok ⊢
          right
          exact ⟨rfl, hok⟩

lemma parseLine_inv (line : List Char) (bb : BmsBuilder)
    (hok : lineOk line = true) (hinv : builderInv bb) :
    ∃ bb', parseLineIntoBms line bb = some bb' ∧ builderInv bb' := by
  unfold parseLineIntoBms
  unfold lineOk at hok
  cases hmeta : metadataTry line with
  | some p =>
    obtain ⟨h, v⟩ := p
    simp only [hmeta]
    exact ⟨bb.with_metadata h v, rfl, hinv⟩
  | none =>
    simp only [hmeta] at hok ⊢
    cases hwav : wavMatch line with
    | some p =>
      obtain ⟨k, d⟩ := p
      simp only [hwav]
      exact ⟨bb.with_keysound (Alphanumeric.from_str (trim k)) (trim d), rfl, hinv⟩
    | none =>
      simp only [hwav] at hok ⊢
      cases hbga : bgaMatch line with
      | some p =>
        obtain ⟨k, d⟩ := p
        simp only [hbga]
        exact ⟨bb.with_bga_layer (Alphanumeric.from_str (trim k)) (trim d), rfl, hinv⟩
      | none =>
        simp only [hbga] at hok ⊢
        cases hbpm : bpmMatch line with
        | some p =>
          obtain ⟨k, d⟩ := p
          simp only [hbpm] at hok ⊢
          obtain ⟨v, hv⟩ := Option.isSome_iff_exists.mp hok
          simp only [hv]
          by_cases hkey : (Alphanumeric.from_str (trim k)).key = 0
          · rw [if_pos hkey]
            exact ⟨{ bb with timeline_builder := bb.timeline_builder.with_base_bpm v },
              rfl, hinv⟩
          · rw [if_neg hkey]
            exact ⟨bb.with_bpm (Alphanumeric.from_str (trim k)) v, rfl, hinv⟩
        | none =>
          simp only [hbpm] at hok ⊢
          cases hobjm : objMatch line with
          | none =>
            simp only [hobjm] at hok ⊢
            exact stopStage_inv line bb hok hinv
          | some r =>
            obtain ⟨mm, ch, d⟩ := r
            simp only [hobjm] at hok ⊢
            have hmlt : mm < 1000 := by
              unfold objMatch at hobjm
              obtain ⟨s, hs⟩ := scanFirst_inv objTryAt line (mm, ch, d) hobjm
              exact objTryAt_measure_lt hs
            rcases objApply_inv mm ch (trim d) line bb hok hmlt hinv with
              ⟨bb', happ, hinv'⟩ | ⟨happ, hstop⟩
            · simp only [happ]
              exact ⟨bb', rfl, hinv'⟩
            · simp only [happ]
              exact stopStage_inv line bb hstop hinv

lemma foldLines_inv :
    ∀ (lines : List (List Char)) (bb : BmsBuilder),
      (∀ line ∈ lines, lineOk line = true) → builderInv bb →
      ∃ bb', lines.foldlM (fun b l => parseLineIntoBms l b) bb = some bb' ∧
        builderInv bb' := by
  intro lines
  induction lines with
  | nil =>
    intro bb _ hinv
    exact ⟨bb, rfl, hinv⟩
  | cons l ls ih =>
    intro bb hok hinv
    obtain ⟨bb1, h1, hinv1⟩ := parseLine_inv l bb (hok l (List.mem_cons_self l ls)) hinv
    obtain ⟨bb2, h2, hinv2⟩ := ih bb1 (fun x hx => hok x (List.mem_cons_of_mem l hx)) hinv1
    refine ⟨bb2, ?_, hinv2⟩
    show (parseLineIntoBms l bb) >>=
      (fun s => ls.foldlM (fun b ln => parseLineIntoBms ln b) s) = some bb2
    rw [h1]
    exact h2

lemma add_event_ne_nil (tl : Timeline) (m bpm len : ℚ) :
    (tl.add_event m bpm len).events ≠ [] := by
  unfold Timeline.add_event
  cases hl : tl.events.getLast? with
  | none => simp
  | some last =>
    dsimp only
    split
    · simp
    · intro hnil
      rw [hnil] at hl
      simp at hl

lemma add_stop_event_some (tl : Timeline) (hne : tl.events ≠ []) (m d : ℚ) :
    ∃ tl', tl.add_stop_event m d = some tl' ∧ tl'.events ≠ [] := by
  unfold Timeline.add_stop_event
  cases hl : tl.events.getLast? with
  | none => exact absurd (List.getLast?_eq_none_iff.mp hl) hne
  | some last =>
    dsimp only
    by_cases hm : last.measure ≠ m
    · rw [if_pos hm]
      exact ⟨_, rfl, by simp⟩
    · rw [if_neg hm]
      exact ⟨_, rfl, by simp⟩

lemma buildLoopStep_some (bpmM stopM : List (ℚ × ℚ)) (mi : List (ℕ × ℚ))
    (hsm : ∀ p ∈ stopM, 0 < p.1) (lb0 ll0 : ℚ) (tl0 : Timeline) (m : ℚ)
    (hemp : tl0.events = [] → m ≤ 0) :
    ∃ lb ll tl,
      TimelineBuilder.buildLoopStep bpmM stopM mi (lb0, ll0, tl0) m = some (lb, ll, tl) ∧
      tl.events ≠ [] := by
  unfold TimelineBuilder.buildLoopStep
  simp only [Option.bind_eq_bind, Option.pure_def]
  cases hs : binarySearchBy stopM (0, 0) (fun p => ratCmp p.1 m) with
  | error j =>
    simp only [hs, Option.some_bind]
    exact ⟨_, _, _, rfl, add_event_ne_nil _ _ _ _⟩
  | ok i =>
    have hfound : (stopM.getD i (0, 0)).1 = m := by
      unfold binarySearchBy at hs
      exact ratCmp_eq_iff.mp (binSearchGo_ok stopM.length 0 stopM.length i le_rfl hs).2
    have hlt : i < stopM.length := by
      unfold binarySearchBy at hs
      exact (binSearchGo_ok stopM.length 0 stopM.length i le_rfl hs).1
    have hne : tl0.events ≠ [] := by
      intro hnil
      have hmle := hemp hnil
      have := hsm _ (getD_mem hlt (0, 0))
      rw [hfound] at this
      exact absurd (lt_of_lt_of_le this hmle) (lt_irrefl 0)
    obtain ⟨tl', htl', hne'⟩ := add_stop_event_some tl0 hne m (stopM.getD i (0, 0)).2
    simp only [hs, htl', Option.some_bind]
    exact ⟨_, _, _, rfl, add_event_ne_nil _ _ _ _⟩

lemma buildLoop_fold_some (bpmM stopM : List (ℚ × ℚ)) (mi : List (ℕ × ℚ))
    (hsm : ∀ p ∈ stopM, 0 < p.1) :
    ∀ (ms : List ℚ) (lb0 ll0 : ℚ) (tl0 : Timeline),
    (tl0.events = [] → ∀ m ∈ ms.head?, m ≤ 0) →
    (tl0.events = [] → ms ≠ []) →
    ∃ lb ll tl,
      ms.foldlM (TimelineBuilder.buildLoopStep bpmM stopM mi) (lb0, ll0, tl0) =
        some (lb, ll, tl) ∧ tl.events ≠ [] := by
  intro ms
  induction ms with
  | nil =>
    intro lb0 ll0 tl0 _ hne
    refine ⟨lb0, ll0, tl0, rfl, ?_⟩
    intro hnil
    exact absurd rfl (hne hnil)
  | cons m ms ih =>
    intro lb0 ll0 tl0 hhead _
    obtain ⟨lb, ll, tl, hstep, hne⟩ :=
      buildLoopStep_some bpmM stopM mi hsm lb0 ll0 tl0 m
        (fun hnil => hhead hnil m rfl)
    obtain ⟨lb2, ll2, tl2, hfold, hne2⟩ :=
      ih lb ll tl (fun hnil => absurd hnil hne) (fun hnil => absurd hnil hne)
    refine ⟨lb2, ll2, tl2, ?_, hne2⟩
    show (TimelineBuilder.buildLoopStep bpmM stopM mi (lb0, ll0, tl0) m) >>=
      (fun s => ms.foldlM (TimelineBuilder.buildLoopStep bpmM stopM mi) s) = _
    rw [hstep]
    exact hfold

lemma timeline_build_some (b : TimelineBuilder)
    (hstop : ∀ m d, TimelineEvent.STOP m d ∈ b.events → 0 < m)
    (hlens_ne : b.measure_lens ≠ []) :
    ∃ tl, b.build = some tl ∧ tl.events ≠ [] := by
  obtain ⟨l0, rest, hlens⟩ : ∃ l0 rest, b.measure_lens = l0 :: rest := by
    cases hc : b.measure_lens with
    | nil => exact absurd hc hlens_ne
    | cons a t => exact ⟨a, t, rfl⟩
  set stopM0 : List (ℚ × ℚ) := b.events.filterMap (fun e => match e with
    | .STOP m d => some (m, d)
    | .BPM _ _ => none) with hstopM0
  set eventMeasures : List ℚ := b.events.map (fun e => match e with
    | .BPM m _ => m
    | .STOP m _ => m) with heventMeasures
  set mi : List (ℕ × ℚ) := (0, l0) :: rleGo l0 1 rest with hmi
  set bpmM : List (ℚ × ℚ) := insSort (fun p q : ℚ × ℚ => p.1 ≤ q.1)
    (b.events.filterMap (fun e => match e with
      | .BPM m v => some (m, v)
      | .STOP _ _ => none)) with hbpmM
  set stopM : List (ℚ × ℚ) := insSort (fun p q : ℚ × ℚ => p.1 ≤ q.1) stopM0 with hstopM
  set sorted : List ℚ :=
    insSort (· ≤ ·) (eventMeasures ++ mi.map (fun p => (p.1 : ℚ))) with hsorted
  set ms : List ℚ := sorted.destutter (· ≠ ·) with hms
  have hsM : ∀ p ∈ stopM, 0 < p.1 := by
    intro p hp
    rw [hstopM] at hp
    rw [mem_insSort] at hp
    rw [hstopM0] at hp
    rw [List.mem_filterMap] at hp
    obtain ⟨e, he, heq⟩ := hp
    cases e with
    | STOP m d =>
      rw [Option.some_inj] at heq
      subst heq
      exact hstop m d he
    | BPM m v => exact absurd heq (by simp)
  have hpw : sorted.Pairwise (· ≤ ·) := by
    rw [hsorted]
    exact pairwise_insSort (fun a b => le_total a b) (fun a b c => le_trans) _
  have h0mem : (0 : ℚ) ∈ sorted := by
    rw [hsorted, mem_insSort]
    refine List.mem_append_right _ ?_
    rw [hmi]
    simp
  obtain ⟨h0, t0, hsortedcons⟩ : ∃ h0 t0, sorted = h0 :: t0 := by
    cases hc : sorted with
    | nil => rw [hc] at h0mem; exact absurd h0mem (List.not_mem_nil _)
    | cons a t => exact ⟨a, t, rfl⟩
  have hmshead : ms.head? = some h0 := by
    rw [hms, hsortedcons]
    show (List.destutter' _ h0 t0).head? = some h0
    exact destutter'_head h0 t0
  have hh0le : h0 ≤ 0 := by
    refine head_le_of_pairwise hpw ?_ h0mem
    rw [hsortedcons]
    rfl
  have hmsne : ms ≠ [] := by
    intro hnil
    rw [hnil] at hmshead
    exact absurd hmshead (by simp)
  set lb0 : ℚ := (if bpmM.isEmpty ∨ 1 / 1000000 < (bpmM.headD (0, 0)).1 - 0 then b.base_bpm
    else (bpmM.headD (0, 0)).2) with hlb0
  obtain ⟨lb2, ll2, tl2, hfold, hnef⟩ :=
    buildLoop_fold_some bpmM stopM mi hsM ms lb0 l0 ⟨[]⟩
      (fun _ m hm => by
        rw [hmshead] at hm
        obtain rfl : h0 = m := by simpa using hm
        exact hh0le)
      (fun _ => hmsne)
  have hb' : b = ⟨b.base_bpm, b.bpms, b.stops, l0 :: rest, b.events⟩ := by
    cases b with
    | mk base bpms stops lens ev =>
      simp only at hlens
      rw [hlens]
  refine ⟨tl2.cache_event_pos, ?_, ?_⟩
  · rw [hb']
    show (ms.foldlM (TimelineBuilder.buildLoopStep bpmM stopM mi) (lb0, l0, (⟨[]⟩ : Timeline)))
        >>= (fun s => pure s.2.2.cache_event_pos) = some tl2.cache_event_pos
    rw [hfold]
    rfl
  · intro hnil
    have h1 := cache_event_pos_proj tl2
    rw [hnil] at h1
    exact hnef (List.map_eq_nil_iff.mp h1.symm)

lemma walkMeasure_lt (v : List Event) (d : Event) (measure : ℚ) :
    ∀ (fuel i : ℕ), i < v.length → walkMeasure v d measure fuel i < v.length := by
  intro fuel
  induction fuel with
  | zero =>
    intro i h
    exact h
  | succ f ih =>
    intro i h
    unfold walkMeasure
    split
    · next hcond => exact ih (i + 1) (by omega)
    · exact h

lemma last_event_index_lt (v : List Event) (m : ℚ) (hne : v ≠ []) :
    Timeline.last_event_index_in_measure v m < v.length := by
  have hlpos : 0 < v.length := List.length_pos.mpr hne
  unfold Timeline.last_event_index_in_measure
  cases hb : binarySearchBy v default (fun e => ratCmp e.measure m) with
  | ok i =>
    unfold binarySearchBy at hb
    exact walkMeasure_lt v default m v.length i
      (binSearchGo_ok v.length 0 v.length i le_rfl hb).1
  | error i =>
    dsimp only
    unfold binarySearchBy at hb
    have hle : i ≤ v.length := binSearchGo_err v.length 0 v.length i (Nat.zero_le _) le_rfl hb
    by_cases h0 : i = 0
    · rw [if_pos h0]
      exact hlpos
    · rw [if_neg h0]
      omega

lemma time_from_measure_some (tl : Timeline) (hne : tl.events ≠ []) (m : ℚ) :
    ∃ t, tl.time_from_measure m = some t := by
  have hlt := last_event_index_lt tl.events m hne
  obtain ⟨e, he⟩ : ∃ e,
      tl.events.get? (Timeline.last_event_index_in_measure tl.events m) = some e := by
    cases hg : tl.events.get? (Timeline.last_event_index_in_measure tl.events m) with
    | some e => exact ⟨e, rfl⟩
    | none =>
      rw [List.get?_eq_none] at hg
      omega
  unfold Timeline.time_from_measure
  simp only [Option.bind_eq_bind, Option.pure_def]
  rw [he]
  simp only [Option.some_bind]
  exact ⟨_, rfl⟩

lemma mapM_time_some (tl : Timeline) (hne : tl.events ≠ []) :
    ∀ (objs : List Object), ∃ objs',
      (objs.mapM fun o => (tl.time_from_measure o.measure).map fun t =>
        { o with time := t }) = some objs' := by
  intro objs
  induction objs with
  | nil => exact ⟨[], rfl⟩
  | cons o os ih =>
    obtain ⟨t, ht⟩ := time_from_measure_some tl hne o.measure
    obtain ⟨os', hos⟩ := ih
    refine ⟨{ o with time := t } :: os', ?_⟩
    rw [List.mapM_cons]
    simp only [Option.bind_eq_bind, Option.pure_def]
    rw [ht]
    simp only [Option.map_some', Option.some_bind]
    rw [hos]
    simp only [Option.some_bind]

lemma bmsBuilder_build_some (bb : BmsBuilder)
    (hstop : ∀ m d, TimelineEvent.STOP m d ∈ bb.timeline_builder.events → 0 < m)
    (hlens_ne : bb.timeline_builder.measure_lens ≠ []) :
    ∃ bms, bb.build = some bms := by
  obtain ⟨tl, htl, hne⟩ := timeline_build_some bb.timeline_builder hstop hlens_ne
  obtain ⟨objs', hobjs⟩ := mapM_time_some tl hne
    (insSort (fun o1 o2 : Object => o1.measure ≤ o2.measure) bb.objects)
  refine ⟨{ title := (msLookup ("TITLE".toList) bb.metadata).getD ("MISSING TITLE".toList),
            artist := (msLookup ("ARTIST".toList) bb.metadata).getD ("MISSING ARTIST".toList),
            metadata := bb.metadata, objects := objs', timeline := tl,
            keysounds := bb.keysounds, bga_layers := bb.bga_layers }, ?_⟩
  unfold BmsBuilder.build
  simp only [Option.bind_eq_bind, Option.pure_def]
  rw [htl]
  simp only [Option.some_bind]
  rw [hobjs]
  simp only [Option.some_bind]

/-- C2 (amended): the load succeeds for every input text in which no line has
a fatal shape — `lineOk` rules out exactly the panicking shapes: a matched
tempo or stop declaration whose value does not parse, and a channel-data line
whose payload has a byte-level slot defect on a slot-encoded channel (an odd
BYTE length, or a two-byte slot boundary inside a multi-byte character:
`pairsShapeOk`), a non-hexadecimal channel-3 slot, or an unparseable
channel-2 length value — and no stop command lands at score position 0
(where `build` reads the last event of the still-empty timeline and panics).
Numeric values range over the finite-literal fragment of `parseF32`. -/
theorem C2_amended (text : String)
    (hok : ∀ line ∈ splitLines text.toList, lineOk line = true)
    (hstop0 : ∀ bb, foldBuilder text = some bb →
      ∀ d, TimelineEvent.STOP 0 d ∉ bb.timeline_builder.events) :
    ∃ bms, parseBms text = some bms := by
  have hinv0 : builderInv BmsBuilder.new := by
    constructor
    · show (List.replicate 1000 (1 : ℚ)).length = 1000
      rw [List.length_replicate]
    · intro m d h
      exact absurd h (List.not_mem_nil _)
  obtain ⟨bb, hfold, hinv⟩ := foldLines_inv (splitLines text.toList) BmsBuilder.new hok hinv0
  have hfold' : foldBuilder text = some bb := hfold
  have hstop : ∀ m d, TimelineEvent.STOP m d ∈ bb.timeline_builder.events → 0 < m := by
    intro m d hm
    rcases lt_or_eq_of_le (hinv.2 m d hm) with h | h
    · exact h
    · exact absurd (h ▸ hm) (hstop0 bb hfold' d)
  have hlens_ne : bb.timeline_builder.measure_lens ≠ [] := by
    intro hnil
    have h1 := hinv.1
    rw [hnil] at h1
    simp at h1
  obtain ⟨bms, hbms⟩ := bmsBuilder_build_some bb hstop hlens_ne
  refine ⟨bms, ?_⟩
  unfold parseBms
  rw [hfold']
  exact hbms

/-- Witness for C2 (amended): a base tempo, an inline hex tempo and a note. -/
theorem C2_amended_witness :
    ∃ bms, parseBms "#BPM 150\x0a#00103:0A\x0a#00111:AA" = some bms :=
  C2_amended "#BPM 150\x0a#00103:0A\x0a#00111:AA"
    (by
      intro line hline
      have hall : (splitLines ("#BPM 150\x0a#00103:0A\x0a#00111:AA").toList).all
          lineOk = true := by
        with_unfolding_all rfl
      exact List.all_eq_true.mp hall line hline)
    (fun bb hbb => by
      have h2 : (foldBuilder "#BPM 150\x0a#00103:0A\x0a#00111:AA").map
          (fun b => b.timeline_builder.events) = some [TimelineEvent.BPM 1 10] := by
        with_unfolding_all rfl
      rw [hbb] at h2
      simp only [Option.map_some'] at h2
      intro d hmem
      rw [Option.some_inj.mp h2] at hmem
      simp at hmem)

end Bms
